import Mathlib

/-!
# container-image-lister: a shallow embedding of `main.go`

The program walks directories, decodes every YAML / JSON document it finds, collects the
strings stored under the key `"image"` and, in validation mode, classifies each of them by
registry host and tag.

Conventions of the embedding

* a Go `string` is a Lean `String`; the only separators the program splits on (`"/"`, `":"`)
  are one-byte ASCII characters, so splitting a UTF-8 string by bytes and by characters
  gives the same parts;
* a Go `map[string]struct{}` (a set of strings) is a `Finset String`, and
  `m[k] = struct{}{}` is `insert k m`;
* a `*bool` is an `Option Bool` (`nil` is `none`);
* a decoded `interface{}` document is a `Value`;
* a run-time panic of `examineYAML` (a failed type assertion) is the result `none`;
* a `for { ... }` loop is a function with fuel, `Run.outOfFuel` meaning that the fuel was
  used up before the loop left.
-/

/-! ## Library functions used by the program -/

/-- Parts of a character list separated by `sep`: a list with `n` occurrences of `sep` has
`n + 1` parts, and the empty list has the single part `[]`. -/
def splitChars (sep : Char) : List Char → List (List Char)
  | [] => [[]]
  | c :: cs =>
    if c = sep then [] :: splitChars sep cs
    else
      match splitChars sep cs with
      | [] => [[c]]
      | p :: ps => (c :: p) :: ps

/-- Go `strings.Split(s, sep)` for a separator of one character, the only way the program
calls it (`"/"` and `":"`). `strings.Split("", sep)` is `[""]`. -/
def strings.Split (s : String) (sep : Char) : List String :=
  (splitChars sep s.data).map String.mk

/-- Go `strings.HasSuffix(s, suffix)`:
`len(s) >= len(suffix) && s[len(s)-len(suffix):] == suffix`. -/
def strings.HasSuffix (s suffix : String) : Bool :=
  decide (suffix.data.length ≤ s.data.length ∧
    s.data.drop (s.data.length - suffix.data.length) = suffix.data)

/-! ## Constants and configuration of `main.go` -/

/-- The constant `imageKey`. -/
def imageKey : String := "image"

/-- The package variable `validImagePrefixes`. -/
def validImagePrefixes : Finset String :=
  {"docker.io", "gcr.io", "k8s.gcr.io", "quay.io"}

/-- The package variable `ignoreImagePrefixes`. -/
def ignoreImagePrefixes : Finset String :=
  {"k8s1:5000"}

/-! ## Classification -/

/-- The function `splitImageName`. -/
def splitImageName (imgName : String) : List String :=
  strings.Split imgName '/'

/-- The function `processImage`: `some false` is a pointer to `false` (invalid), `some true` a
pointer to `true` (valid) and `none` the nil pointer (ignored). The two index expressions
are under their `len(...) > 0` guards, as in the source. -/
def processImage (imgName : String) : Option Bool :=
  let splitImg := splitImageName imgName
  let splitImgColons := strings.Split imgName ':'
  if _h : splitImgColons.length > 0 then
    if splitImgColons[splitImgColons.length - 1] = "latest" then
      some false
    else if _h0 : splitImg.length > 0 then
      if splitImg[0] ∈ ignoreImagePrefixes then
        none
      else if splitImg[0] ∈ validImagePrefixes then
        some true
      else
        some false
    else
      some false
  else
    some false

/-! ## Decoded documents -/

/-- A key of a `map[interface{}]interface{}`: a scalar of any type. -/
inductive Key where
  | null : Key
  | bool (b : Bool) : Key
  | int (n : Int) : Key
  | float (bits : Nat) : Key
  | str (s : String) : Key
  deriving DecidableEq

/-- A decoded document, the dynamic value behind an `interface{}`: a scalar, a
`[]interface{}`, a `map[interface{}]interface{}` (what the YAML decoder builds) or a
`map[string]interface{}` (what the JSON decoder builds). A mapping is the list of its
entries in the order in which `range` visits them. -/
inductive Value where
  | null : Value
  | bool (b : Bool) : Value
  | int (n : Int) : Value
  | float (bits : Nat) : Value
  | str (s : String) : Value
  | slice (x : List Value) : Value
  | mapInterface (x : List (Key × Value)) : Value
  | mapString (x : List (String × Value)) : Value

/-! ## The extractor -/

mutual
/-- The function `examineYAML` with the flag `validateImages` as a parameter. The result is
the pair (`validImages`, `invalidImages`) after the call, or `none` when the call panics. -/
def examineYAML (validateImages : Bool) (kind fileName : String) :
    Value → Finset String × Finset String → Option (Finset String × Finset String)
  | .mapInterface x, sets => examineMapInterface validateImages kind fileName x sets
  | .slice x, sets => examineSlice validateImages kind fileName x sets
  | .mapString x, sets => examineMapString validateImages kind fileName x sets
  | _, sets => some sets
/-- The loop `for k, v := range x` of the case `map[interface{}]interface{}`. -/
def examineMapInterface (validateImages : Bool) (kind fileName : String) :
    List (Key × Value) → Finset String × Finset String →
      Option (Finset String × Finset String)
  | [], sets => some sets
  | (k, v) :: rest, (validImages, invalidImages) =>
    match k with
    | .str kStr =>
      if kStr = imageKey then
        match v with
        | .str vStr =>
          if validateImages then
            match processImage vStr with
            | none =>
              -- `continue`
              examineMapInterface validateImages kind fileName rest (validImages, invalidImages)
            | some true =>
              (examineYAML validateImages kind fileName v
                (insert vStr validImages, invalidImages)).bind
                (examineMapInterface validateImages kind fileName rest)
            | some false =>
              (examineYAML validateImages kind fileName v
                (validImages, insert vStr invalidImages)).bind
                (examineMapInterface validateImages kind fileName rest)
          else
            (examineYAML validateImages kind fileName v
              (insert vStr validImages, invalidImages)).bind
              (examineMapInterface validateImages kind fileName rest)
        | _ =>
          -- `v.(string)` on a value that is not a string
          none
      else
        (examineYAML validateImages kind fileName v (validImages, invalidImages)).bind
          (examineMapInterface validateImages kind fileName rest)
    | _ =>
      (examineYAML validateImages kind fileName v (validImages, invalidImages)).bind
        (examineMapInterface validateImages kind fileName rest)
/-- The loop `for _, v := range x` of the case `[]interface{}`. -/
def examineSlice (validateImages : Bool) (kind fileName : String) :
    List Value → Finset String × Finset String → Option (Finset String × Finset String)
  | [], sets => some sets
  | v :: rest, sets =>
    (examineYAML validateImages kind fileName v sets).bind
      (examineSlice validateImages kind fileName rest)
/-- The loop `for k, v := range x` of the case `map[string]interface{}`. -/
def examineMapString (validateImages : Bool) (kind fileName : String) :
    List (String × Value) → Finset String × Finset String →
      Option (Finset String × Finset String)
  | [], sets => some sets
  | (k, v) :: rest, (validImages, invalidImages) =>
    if k = imageKey then
      match v with
      | .str vStr =>
        if validateImages then
          match processImage vStr with
          | none =>
            -- `continue`
            examineMapString validateImages kind fileName rest (validImages, invalidImages)
          | some true =>
            (examineYAML validateImages kind fileName v
              (insert vStr validImages, invalidImages)).bind
              (examineMapString validateImages kind fileName rest)
          | some false =>
            (examineYAML validateImages kind fileName v
              (validImages, insert vStr invalidImages)).bind
              (examineMapString validateImages kind fileName rest)
        else
          (examineYAML validateImages kind fileName v
            (insert vStr validImages, invalidImages)).bind
            (examineMapString validateImages kind fileName rest)
      | _ =>
        -- `v.(string)` on a value that is not a string
        none
    else
      (examineYAML validateImages kind fileName v (validImages, invalidImages)).bind
        (examineMapString validateImages kind fileName rest)
end

/-! ## The file loader -/

/-- A Go `error` value that is not nil: `io.EOF` or any other error. -/
inductive GoError where
  | EOF : GoError
  | other (msg : String) : GoError
  deriving DecidableEq

/-- How a piece of code with a `for { ... }` loop ends. -/
inductive Run (α : Type) where
  | returns (a : α) : Run α
  | panics : Run α
  | outOfFuel : Run α
  deriving DecidableEq

/-- A decoder (`*yaml.Decoder` or `*json.Decoder`) over one file: `dec n` is what the call
number `n` (from 0) of `dec.Decode(&value)` leaves in the fresh variable `value` and the
error it returns. Nothing else is assumed about a decoder whose calls return; a call of
`Decode` that panics is not described. -/
abbrev Decoder := Nat → Value × Option GoError

/-- The loop
`for { var value interface{}; err := dec.Decode(&value); if err == io.EOF { break };
examineYAML(kind, fileName, value, validImages, invalidImages) }`
of `getImageNamesFromFilesInDirectory`, written once for the YAML branch (`kind = "yaml"`)
and once for the JSON branch (`kind = "json"`). `n` counts the calls of `Decode` made so
far. -/
def decodeLoop (validateImages : Bool) (kind fileName : String) (dec : Decoder) :
    Nat → Nat → Finset String × Finset String → Run (Finset String × Finset String)
  | 0, _, _ => Run.outOfFuel
  | fuel + 1, n, sets =>
    if (dec n).2 = some GoError.EOF then
      Run.returns sets
    else
      match examineYAML validateImages kind fileName (dec n).1 sets with
      | none => Run.panics
      | some sets' => decodeLoop validateImages kind fileName dec fuel (n + 1) sets'

/-- What the loader finds outside the program: the file system behind `ioutil.ReadFile`
and the decoders that `yaml.NewDecoder` and `json.NewDecoder` build over a file content. -/
structure Env where
  readFile : String → Except String String
  yamlNewDecoder : String → Decoder
  jsonNewDecoder : String → Decoder

/-- An effect of the walk callback that is visible from outside. -/
inductive Event where
  | readFile (fileName : String) : Event
  | printf (text : String) : Event
  | newDecoder (kind : String) : Event
  deriving DecidableEq

set_option linter.unusedVariables false in
/-- The callback that `getImageNamesFromFilesInDirectory` hands to `filepath.Walk`, called
with a visited path `fileName` and the walk's error `err` for that path (`info` is not
used by the source and is left out). The result is the list of effects, and how the call
ends: the returned `error` (always nil, `none`) with the two sets. -/
def walkFn (validateImages : Bool) (env : Env) (fuel : Nat) (fileName : String)
    (err : Option GoError) (sets : Finset String × Finset String) :
    List Event × Run (Option GoError × (Finset String × Finset String)) :=
  if strings.HasSuffix fileName "yaml" || strings.HasSuffix fileName "yml" then
    match env.readFile fileName with
    | .error e =>
      ([Event.readFile fileName, Event.printf ("ERROR READING YAML: " ++ e ++ "\n")],
        Run.returns (none, sets))
    | .ok yamlFile =>
      ([Event.readFile fileName, Event.newDecoder "yaml"],
        match decodeLoop validateImages "yaml" fileName (env.yamlNewDecoder yamlFile)
            fuel 0 sets with
        | Run.returns sets' => Run.returns (none, sets')
        | Run.panics => Run.panics
        | Run.outOfFuel => Run.outOfFuel)
  else if strings.HasSuffix fileName "json" then
    match env.readFile fileName with
    | .error e =>
      ([Event.readFile fileName, Event.printf ("ERROR READING JSON: " ++ e ++ "\n")],
        Run.returns (none, sets))
    | .ok jsonFile =>
      ([Event.readFile fileName, Event.newDecoder "json"],
        match decodeLoop validateImages "json" fileName (env.jsonNewDecoder jsonFile)
            fuel 0 sets with
        | Run.returns sets' => Run.returns (none, sets')
        | Run.panics => Run.panics
        | Run.outOfFuel => Run.outOfFuel)
  else
    ([], Run.returns (none, sets))

/-- Go `filepath.Walk(dir, fn)`, given the visits the walk makes below `dir`: each visited
path with the error the walk met for it (nil, `none`, when it met none). The callback is
called on every visit in turn; the first error it returns that is not nil ends the walk
and is the error `Walk` returns, and `Walk` returns nil when the callback always does.
(The sentinel `filepath.SkipDir` is not a value of `GoError`: the callback of this program
never returns it.) -/
def filepath.Walk
    (fn : String → Option GoError → Finset String × Finset String →
      List Event × Run (Option GoError × (Finset String × Finset String))) :
    List (String × Option GoError) → Finset String × Finset String →
      Run (Option GoError × (Finset String × Finset String))
  | [], sets => Run.returns (none, sets)
  | (path, err) :: rest, sets =>
    match (fn path err sets).2 with
    | Run.returns (none, sets') => filepath.Walk fn rest sets'
    | Run.returns (some e, sets') => Run.returns (some e, sets')
    | Run.panics => Run.panics
    | Run.outOfFuel => Run.outOfFuel

/-- The function `getImageNamesFromFilesInDirectory`, with the visits of the walk below `dir`
in place of `dir`. `Except.error e` is the branch `log.Fatalf(...)` taken on the error `e`
that `filepath.Walk` returned, which ends the process; `Except.ok` is a normal return with
the two sets. -/
def getImageNamesFromFilesInDirectory (validateImages : Bool) (env : Env) (fuel : Nat)
    (visits : List (String × Option GoError)) (sets : Finset String × Finset String) :
    Run (Except GoError (Finset String × Finset String)) :=
  match filepath.Walk (walkFn validateImages env fuel) visits sets with
  | Run.returns (some e, _) => Run.returns (Except.error e)
  | Run.returns (none, sets') => Run.returns (Except.ok sets')
  | Run.panics => Run.panics
  | Run.outOfFuel => Run.outOfFuel

/-! ## The reporter -/

/-- Go `sort.Strings`: the slice sorted in increasing order of `<` on strings. -/
def sort.Strings (x : List String) : List String :=
  x.insertionSort (fun a b => a ≤ b)

/-- The keys of the map `strMap` in an order in which `for img := range strMap` may visit
them: every key once, in no specified order. -/
def IsRangeOf (strMap : Finset String) (keys : List String) : Prop :=
  keys.Nodup ∧ ∀ k, k ∈ keys ↔ k ∈ strMap

/-- The function `printMapSortedByKeys`, given the keys of `strMap` in the order in which
`range strMap` visits them; the result is the text written to standard output, every
`fmt.Printf("%s\n", img)` appending `img` and a newline to it. -/
def printMapSortedByKeys (rangeKeys : List String) : String :=
  let strList := rangeKeys.foldl (fun strList img => strList ++ [img]) []
  let strList := sort.Strings strList
  strList.foldl (fun out img => out ++ (img ++ "\n")) ""

/-- The lines of a text: the pieces between its newline characters, what follows the last
newline being a line only when it is not empty. -/
def linesOf (out : String) : List String :=
  let parts := strings.Split out '\n'
  if parts.getLast? = some "" then parts.dropLast else parts

/-! ## Vocabulary of the specification -/

/-- The relation `Node d n`: the value `n` occurs in the document `d`, at any depth below
mappings and sequences (`d` itself included). -/
inductive Node : Value → Value → Prop where
  | self (d : Value) : Node d d
  | slice {x : List Value} {v n : Value} : v ∈ x → Node v n → Node (.slice x) n
  | mapInterface {x : List (Key × Value)} {k : Key} {v n : Value} :
      (k, v) ∈ x → Node v n → Node (.mapInterface x) n
  | mapString {x : List (String × Value)} {k : String} {v n : Value} :
      (k, v) ∈ x → Node v n → Node (.mapString x) n

/-- The mapping `n` has an entry whose key is the string `"image"` and whose value is `v`. -/
def ImageEntry (n v : Value) : Prop :=
  (∃ x, n = .mapInterface x ∧ (Key.str "image", v) ∈ x) ∨
  (∃ x, n = .mapString x ∧ ("image", v) ∈ x)

/-- The string `s` is attached to an `"image"` key somewhere in the document `d`. -/
def HasImage (s : String) (d : Value) : Prop :=
  ∃ n, Node d n ∧ ImageEntry n (.str s)

/-- Every value attached to an `"image"` key in the document `d` is a string. -/
def ImagesAreStrings (d : Value) : Prop :=
  ∀ n v, Node d n → ImageEntry n v → ∃ s, v = .str s

mutual
/-- The document `d` with every string-keyed mapping (`map[string]interface{}`) rebuilt as
an arbitrary-keyed mapping (`map[interface{}]interface{}`) that has the same string keys
and, in the same way, the rebuilt values: the shape the YAML decoder gives to a document
that the JSON decoder gives as `d`. -/
def withInterfaceKeys : Value → Value
  | .slice x => .slice (withInterfaceKeysSlice x)
  | .mapString x => .mapInterface (withInterfaceKeysEntries x)
  | .mapInterface x => .mapInterface (withInterfaceKeysIface x)
  | .null => .null
  | .bool b => .bool b
  | .int n => .int n
  | .float bits => .float bits
  | .str s => .str s
/-- The elements of a sequence rebuilt by `withInterfaceKeys`. -/
def withInterfaceKeysSlice : List Value → List Value
  | [] => []
  | v :: rest => withInterfaceKeys v :: withInterfaceKeysSlice rest
/-- The entries of a string-keyed mapping rebuilt by `withInterfaceKeys`. -/
def withInterfaceKeysEntries : List (String × Value) → List (Key × Value)
  | [] => []
  | (k, v) :: rest => (Key.str k, withInterfaceKeys v) :: withInterfaceKeysEntries rest
/-- The entries of an arbitrary-keyed mapping with their values rebuilt by
`withInterfaceKeys`. -/
def withInterfaceKeysIface : List (Key × Value) → List (Key × Value)
  | [] => []
  | (k, v) :: rest => (k, withInterfaceKeys v) :: withInterfaceKeysIface rest
end

/-! ## Auxiliary definitions for the proofs -/

/-- The effect on the two sets of the block guarded by `kStr == imageKey` (and by
`k == imageKey`) when the value is the string `vStr`. -/
def addImage (validateImages : Bool) (vStr : String) (sets : Finset String × Finset String) :
    Finset String × Finset String :=
  if validateImages then
    match processImage vStr with
    | none => sets
    | some true => (insert vStr sets.1, sets.2)
    | some false => (sets.1, insert vStr sets.2)
  else (insert vStr sets.1, sets.2)

/-- The pair `r` is the pair `sets` with every string satisfying `P` added: to the valid set
when validation is off or the string is classified valid, to the invalid set when
validation is on and the string is classified invalid. -/
def Collects (b : Bool) (P : String → Prop) (sets r : Finset String × Finset String) : Prop :=
  (∀ s, s ∈ r.1 ↔ s ∈ sets.1 ∨ (P s ∧ (b = false ∨ processImage s = some true))) ∧
  (∀ s, s ∈ r.2 ↔ s ∈ sets.2 ∨ (P s ∧ b = true ∧ processImage s = some false))

/-! ## Sample inputs -/

/-- The document
`{spec: [{image: "gcr.io/a:v1"}], image: "k8s1:5000/b:v1", 5: {image: "x:latest"}}`. -/
def sampleDocument : Value :=
  .mapInterface
    [(.str "spec", .slice [.mapInterface [(.str "image", .str "gcr.io/a:v1")]]),
      (.str "image", .str "k8s1:5000/b:v1"),
      (.int 5, .mapString [("image", .str "x:latest")])]

/-- A decoder over a well-formed file: it yields the documents `docs` one after the other
with a nil error, and `io.EOF` from then on. -/
def decoderOf (docs : List Value) : Decoder :=
  fun n =>
    match docs[n]? with
    | some d => (d, none)
    | none => (.null, some GoError.EOF)

/-- An environment in which every file is empty: each read succeeds and each decoder is at
its end of input. -/
def emptyFilesEnv : Env where
  readFile := fun _ => .ok ""
  yamlNewDecoder := fun _ => decoderOf []
  jsonNewDecoder := fun _ => decoderOf []

/-- A decoder in a sticky error state, such as a `*json.Decoder` over the content `{`: every
call of `Decode` leaves `value` nil and returns the same error, which is not `io.EOF`. -/
def stuckDecoder : Decoder :=
  fun _ => (.null, some (GoError.other "unexpected EOF"))

/-- An environment with the single file `bad.json`, whose content is `{` and over which the
JSON decoder is stuck; every other read fails. A name that ends in `json` ends neither in
`yaml` nor in `yml`, so no YAML decoder is built in this environment and its field
`yamlNewDecoder` is never called. -/
def brokenJsonEnv : Env where
  readFile := fun fileName =>
    if fileName = "bad.json" then .ok "\x7b" else .error "open: no such file or directory"
  yamlNewDecoder := fun _ => decoderOf []
  jsonNewDecoder := fun _ => stuckDecoder

/-! ## Lemmas on splitting and on `processImage` -/

theorem splitChars_ne_nil (sep : Char) (l : List Char) : splitChars sep l ≠ [] := by
  induction l with
  | nil => simp [splitChars]
  | cons c cs ih =>
    unfold splitChars
    split
    · simp
    · split <;> simp

theorem splitChars_append_sep (sep : Char) (a b : List Char) :
    splitChars sep (a ++ sep :: b) = splitChars sep a ++ splitChars sep b := by
  induction a with
  | nil => simp [splitChars]
  | cons c cs ih =>
    by_cases hc : c = sep
    · simp [splitChars, hc, ih]
    · have hne := splitChars_ne_nil sep cs
      cases hsp : splitChars sep cs with
      | nil => exact absurd hsp hne
      | cons p ps => simp [splitChars, hc, ih, hsp]

theorem splitChars_of_not_mem (sep : Char) (q : List Char) (h : sep ∉ q) :
    splitChars sep q = [q] := by
  induction q with
  | nil => simp [splitChars]
  | cons c cs ih =>
    simp only [List.mem_cons, not_or] at h
    have hc : ¬ c = sep := fun e => h.1 e.symm
    simp [splitChars, hc, ih h.2]

theorem strings_Split_ne_nil (s : String) (sep : Char) : strings.Split s sep ≠ [] := by
  simp [strings.Split, splitChars_ne_nil]

theorem processImage_eq (s : String) :
    processImage s =
      if (strings.Split s ':').getLast? = some "latest" then some false
      else
        match (splitImageName s).head? with
        | some seg =>
          if seg ∈ ignoreImagePrefixes then none
          else if seg ∈ validImagePrefixes then some true
          else some false
        | none => some false := by
  have h1 : 0 < (strings.Split s ':').length :=
    List.length_pos.mpr (strings_Split_ne_nil s ':')
  have h2 : 0 < (splitImageName s).length :=
    List.length_pos.mpr (strings_Split_ne_nil s '/')
  have e1 : (strings.Split s ':').getLast? =
      some ((strings.Split s ':')[(strings.Split s ':').length - 1]) := by
    rw [List.getLast?_eq_getElem?, List.getElem?_eq_getElem]
  have e2 : (splitImageName s).head? = some ((splitImageName s)[0]) := by
    rw [List.head?_eq_getElem?, List.getElem?_eq_getElem]
  simp only [processImage, h1, h2, e1, e2, dite_true, gt_iff_lt, Option.some.injEq]

theorem examineYAML_str (b : Bool) (kind f : String) (s : String)
    (sets : Finset String × Finset String) :
    examineYAML b kind f (.str s) sets = some sets := by
  simp [examineYAML]

theorem examineMapInterface_image (b : Bool) (kind f : String) (vStr : String)
    (rest : List (Key × Value)) (sets : Finset String × Finset String) :
    examineMapInterface b kind f ((.str "image", .str vStr) :: rest) sets =
      examineMapInterface b kind f rest (addImage b vStr sets) := by
  obtain ⟨vs, is⟩ := sets
  cases b <;> simp [examineMapInterface, addImage, imageKey, examineYAML_str]
  cases processImage vStr with
  | none => simp
  | some r => cases r <;> simp

theorem examineMapInterface_other (b : Bool) (kind f : String) (k : Key) (v : Value)
    (rest : List (Key × Value)) (sets : Finset String × Finset String)
    (hk : k ≠ .str "image") :
    examineMapInterface b kind f ((k, v) :: rest) sets =
      (examineYAML b kind f v sets).bind (examineMapInterface b kind f rest) := by
  obtain ⟨vs, is⟩ := sets
  cases k with
  | str kStr =>
    have : kStr ≠ "image" := fun e => hk (by rw [e])
    simp [examineMapInterface, imageKey, this]
  | _ => simp [examineMapInterface]

theorem examineMapInterface_panics (b : Bool) (kind f : String) (v : Value)
    (rest : List (Key × Value)) (sets : Finset String × Finset String)
    (hv : ∀ s, v ≠ .str s) :
    examineMapInterface b kind f ((.str "image", v) :: rest) sets = none := by
  obtain ⟨vs, is⟩ := sets
  cases v with
  | str s => exact absurd rfl (hv s)
  | _ => simp [examineMapInterface, imageKey]

theorem examineMapString_image (b : Bool) (kind f : String) (vStr : String)
    (rest : List (String × Value)) (sets : Finset String × Finset String) :
    examineMapString b kind f (("image", .str vStr) :: rest) sets =
      examineMapString b kind f rest (addImage b vStr sets) := by
  obtain ⟨vs, is⟩ := sets
  cases b <;> simp [examineMapString, addImage, imageKey, examineYAML_str]
  cases processImage vStr with
  | none => simp
  | some r => cases r <;> simp

theorem examineMapString_other (b : Bool) (kind f : String) (k : String) (v : Value)
    (rest : List (String × Value)) (sets : Finset String × Finset String)
    (hk : k ≠ "image") :
    examineMapString b kind f ((k, v) :: rest) sets =
      (examineYAML b kind f v sets).bind (examineMapString b kind f rest) := by
  obtain ⟨vs, is⟩ := sets
  simp [examineMapString, imageKey, hk]

theorem examineMapString_panics (b : Bool) (kind f : String) (v : Value)
    (rest : List (String × Value)) (sets : Finset String × Finset String)
    (hv : ∀ s, v ≠ .str s) :
    examineMapString b kind f (("image", v) :: rest) sets = none := by
  obtain ⟨vs, is⟩ := sets
  cases v with
  | str s => exact absurd rfl (hv s)
  | _ => simp [examineMapString, imageKey]

theorem node_slice_iff (x : List Value) (n : Value) :
    Node (.slice x) n ↔ n = .slice x ∨ ∃ v, v ∈ x ∧ Node v n := by
  constructor
  · intro h
    cases h with
    | self => exact Or.inl rfl
    | slice hm hn => exact Or.inr ⟨_, hm, hn⟩
  · rintro (rfl | ⟨v, hm, hn⟩)
    · exact Node.self _
    · exact Node.slice hm hn

theorem node_mapInterface_iff (x : List (Key × Value)) (n : Value) :
    Node (.mapInterface x) n ↔ n = .mapInterface x ∨ ∃ k v, (k, v) ∈ x ∧ Node v n := by
  constructor
  · intro h
    cases h with
    | self => exact Or.inl rfl
    | mapInterface hm hn => exact Or.inr ⟨_, _, hm, hn⟩
  · rintro (rfl | ⟨k, v, hm, hn⟩)
    · exact Node.self _
    · exact Node.mapInterface hm hn

theorem node_mapString_iff (x : List (String × Value)) (n : Value) :
    Node (.mapString x) n ↔ n = .mapString x ∨ ∃ k v, (k, v) ∈ x ∧ Node v n := by
  constructor
  · intro h
    cases h with
    | self => exact Or.inl rfl
    | mapString hm hn => exact Or.inr ⟨_, _, hm, hn⟩
  · rintro (rfl | ⟨k, v, hm, hn⟩)
    · exact Node.self _
    · exact Node.mapString hm hn

theorem hasImage_slice_nil (s : String) : ¬ HasImage s (.slice []) := by
  rintro ⟨n, hn, he⟩
  rw [node_slice_iff] at hn
  rcases hn with rfl | ⟨v, hm, _⟩
  · rcases he with ⟨x, hx, _⟩ | ⟨x, hx, _⟩ <;> cases hx
  · cases hm

theorem hasImage_slice_cons (s : String) (v : Value) (rest : List Value) :
    HasImage s (.slice (v :: rest)) ↔ HasImage s v ∨ HasImage s (.slice rest) := by
  constructor
  · rintro ⟨n, hn, he⟩
    rw [node_slice_iff] at hn
    rcases hn with rfl | ⟨w, hm, hw⟩
    · rcases he with ⟨x, hx, _⟩ | ⟨x, hx, _⟩ <;> cases hx
    · rcases List.mem_cons.mp hm with rfl | hm
      · exact Or.inl ⟨n, hw, he⟩
      · exact Or.inr ⟨n, Node.slice hm hw, he⟩
  · rintro (⟨n, hn, he⟩ | ⟨n, hn, he⟩)
    · exact ⟨n, Node.slice (List.mem_cons_self _ _) hn, he⟩
    · rw [node_slice_iff] at hn
      rcases hn with rfl | ⟨w, hm, hw⟩
      · rcases he with ⟨x, hx, _⟩ | ⟨x, hx, _⟩ <;> cases hx
      · exact ⟨n, Node.slice (List.mem_cons_of_mem _ hm) hw, he⟩

theorem hasImage_mapInterface_nil (s : String) : ¬ HasImage s (.mapInterface []) := by
  rintro ⟨n, hn, he⟩
  rw [node_mapInterface_iff] at hn
  rcases hn with rfl | ⟨k, v, hm, _⟩
  · rcases he with ⟨x, hx, hm⟩ | ⟨x, hx, _⟩
    · cases hx; cases hm
    · cases hx
  · cases hm

theorem hasImage_mapInterface_cons (s : String) (k : Key) (v : Value)
    (rest : List (Key × Value)) :
    HasImage s (.mapInterface ((k, v) :: rest)) ↔
      (k = .str "image" ∧ v = .str s) ∨ HasImage s v ∨ HasImage s (.mapInterface rest) := by
  constructor
  · rintro ⟨n, hn, he⟩
    rw [node_mapInterface_iff] at hn
    rcases hn with rfl | ⟨k', w, hm, hw⟩
    · rcases he with ⟨x, hx, hm⟩ | ⟨x, hx, _⟩
      · cases hx
        rcases List.mem_cons.mp hm with h | hm
        · cases h; exact Or.inl ⟨rfl, rfl⟩
        · exact Or.inr (Or.inr ⟨_, Node.self _, Or.inl ⟨_, rfl, hm⟩⟩)
      · cases hx
    · rcases List.mem_cons.mp hm with h | hm
      · cases h; exact Or.inr (Or.inl ⟨n, hw, he⟩)
      · exact Or.inr (Or.inr ⟨n, Node.mapInterface hm hw, he⟩)
  · rintro (⟨rfl, rfl⟩ | ⟨n, hn, he⟩ | ⟨n, hn, he⟩)
    · exact ⟨_, Node.self _, Or.inl ⟨_, rfl, List.mem_cons_self _ _⟩⟩
    · exact ⟨n, Node.mapInterface (List.mem_cons_self _ _) hn, he⟩
    · rw [node_mapInterface_iff] at hn
      rcases hn with rfl | ⟨k', w, hm, hw⟩
      · rcases he with ⟨x, hx, hm⟩ | ⟨x, hx, _⟩
        · cases hx
          exact ⟨_, Node.self _, Or.inl ⟨_, rfl, List.mem_cons_of_mem _ hm⟩⟩
        · cases hx
      · exact ⟨n, Node.mapInterface (List.mem_cons_of_mem _ hm) hw, he⟩

theorem hasImage_mapString_nil (s : String) : ¬ HasImage s (.mapString []) := by
  rintro ⟨n, hn, he⟩
  rw [node_mapString_iff] at hn
  rcases hn with rfl | ⟨k, v, hm, _⟩
  · rcases he with ⟨x, hx, _⟩ | ⟨x, hx, hm⟩
    · cases hx
    · cases hx; cases hm
  · cases hm

theorem hasImage_mapString_cons (s : String) (k : String) (v : Value)
    (rest : List (String × Value)) :
    HasImage s (.mapString ((k, v) :: rest)) ↔
      (k = "image" ∧ v = .str s) ∨ HasImage s v ∨ HasImage s (.mapString rest) := by
  constructor
  · rintro ⟨n, hn, he⟩
    rw [node_mapString_iff] at hn
    rcases hn with rfl | ⟨k', w, hm, hw⟩
    · rcases he with ⟨x, hx, _⟩ | ⟨x, hx, hm⟩
      · cases hx
      · cases hx
        rcases List.mem_cons.mp hm with h | hm
        · cases h; exact Or.inl ⟨rfl, rfl⟩
        · exact Or.inr (Or.inr ⟨_, Node.self _, Or.inr ⟨_, rfl, hm⟩⟩)
    · rcases List.mem_cons.mp hm with h | hm
      · cases h; exact Or.inr (Or.inl ⟨n, hw, he⟩)
      · exact Or.inr (Or.inr ⟨n, Node.mapString hm hw, he⟩)
  · rintro (⟨rfl, rfl⟩ | ⟨n, hn, he⟩ | ⟨n, hn, he⟩)
    · exact ⟨_, Node.self _, Or.inr ⟨_, rfl, List.mem_cons_self _ _⟩⟩
    · exact ⟨n, Node.mapString (List.mem_cons_self _ _) hn, he⟩
    · rw [node_mapString_iff] at hn
      rcases hn with rfl | ⟨k', w, hm, hw⟩
      · rcases he with ⟨x, hx, _⟩ | ⟨x, hx, hm⟩
        · cases hx
        · cases hx
          exact ⟨_, Node.self _, Or.inr ⟨_, rfl, List.mem_cons_of_mem _ hm⟩⟩
      · exact ⟨n, Node.mapString (List.mem_cons_of_mem _ hm) hw, he⟩

theorem collects_refl (b : Bool) (P : String → Prop) (sets : Finset String × Finset String)
    (hP : ∀ s, ¬ P s) : Collects b P sets sets := by
  constructor <;> intro s <;> simp [hP s]

theorem collects_trans {b : Bool} {P Q R : String → Prop}
    {sets r1 r2 : Finset String × Finset String}
    (h1 : Collects b P sets r1) (h2 : Collects b Q r1 r2) (hR : ∀ s, R s ↔ P s ∨ Q s) :
    Collects b R sets r2 := by
  constructor
  · intro s
    rw [h2.1 s, h1.1 s, hR s]
    tauto
  · intro s
    rw [h2.2 s, h1.2 s, hR s]
    tauto

theorem collects_addImage (b : Bool) (vStr : String) (sets : Finset String × Finset String) :
    Collects b (fun s => s = vStr) sets (addImage b vStr sets) := by
  cases b
  · constructor <;> intro s <;> simp [addImage, or_comm]
  · cases hp : processImage vStr with
    | none =>
      constructor <;> intro s <;> simp [addImage, hp]
      · rintro rfl; simp [hp]
      · rintro rfl; simp [hp]
    | some r =>
      cases r
      · constructor <;> intro s <;> simp [addImage, hp]
        · rintro rfl; simp [hp]
        · constructor
          · rintro (rfl | h)
            · exact Or.inr ⟨rfl, hp⟩
            · exact Or.inl h
          · rintro (h | ⟨rfl, _⟩)
            · exact Or.inr h
            · exact Or.inl rfl
      · constructor <;> intro s <;> simp [addImage, hp]
        · constructor
          · rintro (rfl | h)
            · exact Or.inr ⟨rfl, hp⟩
            · exact Or.inl h
          · rintro (h | ⟨rfl, _⟩)
            · exact Or.inr h
            · exact Or.inl rfl
        · rintro rfl; simp [hp]

theorem imagesAreStrings_of_node {d n : Value} (hd : ImagesAreStrings d) (hn : Node d n) :
    ImagesAreStrings n := by
  have trans : ∀ {a b c : Value}, Node a b → Node b c → Node a c := by
    intro a b c hab
    induction hab with
    | self => exact id
    | slice hm _ ih => exact fun h => Node.slice hm (ih h)
    | mapInterface hm _ ih => exact fun h => Node.mapInterface hm (ih h)
    | mapString hm _ ih => exact fun h => Node.mapString hm (ih h)
  exact fun m v hm hv => hd m v (trans hn hm) hv

theorem imagesAreStrings_slice_cons (v : Value) (rest : List Value) :
    ImagesAreStrings (.slice (v :: rest)) ↔
      ImagesAreStrings v ∧ ImagesAreStrings (.slice rest) := by
  constructor
  · intro h
    refine ⟨imagesAreStrings_of_node h (Node.slice (List.mem_cons_self _ _) (Node.self _)), ?_⟩
    intro n w hn he
    rw [node_slice_iff] at hn
    rcases hn with rfl | ⟨u, hm, hu⟩
    · rcases he with ⟨x, hx, _⟩ | ⟨x, hx, _⟩ <;> cases hx
    · exact h n w (Node.slice (List.mem_cons_of_mem _ hm) hu) he
  · rintro ⟨hv, hr⟩ n w hn he
    rw [node_slice_iff] at hn
    rcases hn with rfl | ⟨u, hm, hu⟩
    · rcases he with ⟨x, hx, _⟩ | ⟨x, hx, _⟩ <;> cases hx
    · rcases List.mem_cons.mp hm with rfl | hm
      · exact hv n w hu he
      · exact hr n w (Node.slice hm hu) he

theorem imagesAreStrings_mapInterface_cons (k : Key) (v : Value) (rest : List (Key × Value)) :
    ImagesAreStrings (.mapInterface ((k, v) :: rest)) ↔
      (k = .str "image" → ∃ s, v = .str s) ∧ ImagesAreStrings v ∧
        ImagesAreStrings (.mapInterface rest) := by
  constructor
  · intro h
    refine ⟨?_, imagesAreStrings_of_node h
      (Node.mapInterface (List.mem_cons_self _ _) (Node.self _)), ?_⟩
    · rintro rfl
      exact h _ v (Node.self _) (Or.inl ⟨_, rfl, List.mem_cons_self _ _⟩)
    · intro n w hn he
      rw [node_mapInterface_iff] at hn
      rcases hn with rfl | ⟨k', u, hm, hu⟩
      · rcases he with ⟨x, hx, hm⟩ | ⟨x, hx, _⟩
        · cases hx
          exact h _ w (Node.self _) (Or.inl ⟨_, rfl, List.mem_cons_of_mem _ hm⟩)
        · cases hx
      · exact h n w (Node.mapInterface (List.mem_cons_of_mem _ hm) hu) he
  · rintro ⟨hk, hv, hr⟩ n w hn he
    rw [node_mapInterface_iff] at hn
    rcases hn with rfl | ⟨k', u, hm, hu⟩
    · rcases he with ⟨x, hx, hm⟩ | ⟨x, hx, _⟩
      · cases hx
        rcases List.mem_cons.mp hm with e | hm
        · cases e; exact hk rfl
        · exact hr _ w (Node.self _) (Or.inl ⟨_, rfl, hm⟩)
      · cases hx
    · rcases List.mem_cons.mp hm with e | hm
      · cases e; exact hv n w hu he
      · exact hr n w (Node.mapInterface hm hu) he

theorem imagesAreStrings_mapString_cons (k : String) (v : Value)
    (rest : List (String × Value)) :
    ImagesAreStrings (.mapString ((k, v) :: rest)) ↔
      (k = "image" → ∃ s, v = .str s) ∧ ImagesAreStrings v ∧
        ImagesAreStrings (.mapString rest) := by
  constructor
  · intro h
    refine ⟨?_, imagesAreStrings_of_node h
      (Node.mapString (List.mem_cons_self _ _) (Node.self _)), ?_⟩
    · rintro rfl
      exact h _ v (Node.self _) (Or.inr ⟨_, rfl, List.mem_cons_self _ _⟩)
    · intro n w hn he
      rw [node_mapString_iff] at hn
      rcases hn with rfl | ⟨k', u, hm, hu⟩
      · rcases he with ⟨x, hx, _⟩ | ⟨x, hx, hm⟩
        · cases hx
        · cases hx
          exact h _ w (Node.self _) (Or.inr ⟨_, rfl, List.mem_cons_of_mem _ hm⟩)
      · exact h n w (Node.mapString (List.mem_cons_of_mem _ hm) hu) he
  · rintro ⟨hk, hv, hr⟩ n w hn he
    rw [node_mapString_iff] at hn
    rcases hn with rfl | ⟨k', u, hm, hu⟩
    · rcases he with ⟨x, hx, _⟩ | ⟨x, hx, hm⟩
      · cases hx
      · cases hx
        rcases List.mem_cons.mp hm with e | hm
        · cases e; exact hk rfl
        · exact hr _ w (Node.self _) (Or.inr ⟨_, rfl, hm⟩)
    · rcases List.mem_cons.mp hm with e | hm
      · cases e; exact hv n w hu he
      · exact hr n w (Node.mapString hm hu) he

theorem hasImage_str (s t : String) : ¬ HasImage s (.str t) := by
  rintro ⟨n, hn, he⟩
  cases hn
  rcases he with ⟨x, hx, _⟩ | ⟨x, hx, _⟩ <;> cases hx

theorem examineSlice_collects (b : Bool) (kind f : String) (x : List Value)
    (ih : ∀ v, v ∈ x → ∀ sets, ImagesAreStrings v →
      ∃ r, examineYAML b kind f v sets = some r ∧ Collects b (fun s => HasImage s v) sets r) :
    ∀ sets, ImagesAreStrings (.slice x) →
      ∃ r, examineSlice b kind f x sets = some r ∧
        Collects b (fun s => HasImage s (.slice x)) sets r := by
  induction x with
  | nil =>
    intro sets _
    exact ⟨sets, by simp [examineSlice], collects_refl _ _ _ hasImage_slice_nil⟩
  | cons v rest ihx =>
    intro sets hd
    rw [imagesAreStrings_slice_cons] at hd
    obtain ⟨r1, e1, c1⟩ := ih v (List.mem_cons_self _ _) sets hd.1
    obtain ⟨r2, e2, c2⟩ := ihx (fun w hw => ih w (List.mem_cons_of_mem _ hw)) r1 hd.2
    refine ⟨r2, by simp [examineSlice, e1, e2], collects_trans c1 c2 ?_⟩
    exact fun s => hasImage_slice_cons s v rest

theorem examineMapInterface_collects (b : Bool) (kind f : String) (x : List (Key × Value))
    (ih : ∀ k v, (k, v) ∈ x → ∀ sets, ImagesAreStrings v →
      ∃ r, examineYAML b kind f v sets = some r ∧ Collects b (fun s => HasImage s v) sets r) :
    ∀ sets, ImagesAreStrings (.mapInterface x) →
      ∃ r, examineMapInterface b kind f x sets = some r ∧
        Collects b (fun s => HasImage s (.mapInterface x)) sets r := by
  induction x with
  | nil =>
    intro sets _
    exact ⟨sets, by simp [examineMapInterface], collects_refl _ _ _ hasImage_mapInterface_nil⟩
  | cons kv rest ihx =>
    obtain ⟨k, v⟩ := kv
    intro sets hd
    rw [imagesAreStrings_mapInterface_cons] at hd
    have ihr := ihx (fun k' w hw => ih k' w (List.mem_cons_of_mem _ hw))
    by_cases hk : k = .str "image"
    · subst hk
      obtain ⟨vStr, rfl⟩ := hd.1 rfl
      obtain ⟨r2, e2, c2⟩ := ihr (addImage b vStr sets) hd.2.2
      refine ⟨r2, by rw [examineMapInterface_image, e2],
        collects_trans (collects_addImage b vStr sets) c2 ?_⟩
      intro s
      rw [hasImage_mapInterface_cons]
      have := hasImage_str s vStr
      constructor
      · rintro (⟨_, h⟩ | h | h)
        · cases h; exact Or.inl rfl
        · exact absurd h this
        · exact Or.inr h
      · rintro (rfl | h)
        · exact Or.inl ⟨rfl, rfl⟩
        · exact Or.inr (Or.inr h)
    · obtain ⟨r1, e1, c1⟩ := ih k v (List.mem_cons_self _ _) sets hd.2.1
      obtain ⟨r2, e2, c2⟩ := ihr r1 hd.2.2
      refine ⟨r2, by rw [examineMapInterface_other _ _ _ _ _ _ _ hk, e1]; simpa using e2,
        collects_trans c1 c2 ?_⟩
      intro s
      rw [hasImage_mapInterface_cons]
      simp [hk]

theorem examineMapString_collects (b : Bool) (kind f : String) (x : List (String × Value))
    (ih : ∀ k v, (k, v) ∈ x → ∀ sets, ImagesAreStrings v →
      ∃ r, examineYAML b kind f v sets = some r ∧ Collects b (fun s => HasImage s v) sets r) :
    ∀ sets, ImagesAreStrings (.mapString x) →
      ∃ r, examineMapString b kind f x sets = some r ∧
        Collects b (fun s => HasImage s (.mapString x)) sets r := by
  induction x with
  | nil =>
    intro sets _
    exact ⟨sets, by simp [examineMapString], collects_refl _ _ _ hasImage_mapString_nil⟩
  | cons kv rest ihx =>
    obtain ⟨k, v⟩ := kv
    intro sets hd
    rw [imagesAreStrings_mapString_cons] at hd
    have ihr := ihx (fun k' w hw => ih k' w (List.mem_cons_of_mem _ hw))
    by_cases hk : k = "image"
    · subst hk
      obtain ⟨vStr, rfl⟩ := hd.1 rfl
      obtain ⟨r2, e2, c2⟩ := ihr (addImage b vStr sets) hd.2.2
      refine ⟨r2, by rw [examineMapString_image, e2],
        collects_trans (collects_addImage b vStr sets) c2 ?_⟩
      intro s
      rw [hasImage_mapString_cons]
      have := hasImage_str s vStr
      constructor
      · rintro (⟨_, h⟩ | h | h)
        · cases h; exact Or.inl rfl
        · exact absurd h this
        · exact Or.inr h
      · rintro (rfl | h)
        · exact Or.inl ⟨rfl, rfl⟩
        · exact Or.inr (Or.inr h)
    · obtain ⟨r1, e1, c1⟩ := ih k v (List.mem_cons_self _ _) sets hd.2.1
      obtain ⟨r2, e2, c2⟩ := ihr r1 hd.2.2
      refine ⟨r2, by rw [examineMapString_other _ _ _ _ _ _ _ hk, e1]; simpa using e2,
        collects_trans c1 c2 ?_⟩
      intro s
      rw [hasImage_mapString_cons]
      simp [hk]

theorem examineYAML_collects (b : Bool) (kind f : String) :
    ∀ (d : Value) (sets : Finset String × Finset String), ImagesAreStrings d →
      ∃ r, examineYAML b kind f d sets = some r ∧ Collects b (fun s => HasImage s d) sets r
  | .slice x, sets, hd => by
    have h := examineSlice_collects b kind f x
      (fun v hv sets' hv' =>
        have : sizeOf v < 1 + sizeOf x := by
          have := List.sizeOf_lt_of_mem hv
          omega
        examineYAML_collects b kind f v sets' hv') sets hd
    simpa [examineYAML] using h
  | .mapInterface x, sets, hd => by
    have h := examineMapInterface_collects b kind f x
      (fun k v hv sets' hv' =>
        have : sizeOf v < 1 + sizeOf x := by
          have := List.sizeOf_lt_of_mem hv
          simp at this
          omega
        examineYAML_collects b kind f v sets' hv') sets hd
    simpa [examineYAML] using h
  | .mapString x, sets, hd => by
    have h := examineMapString_collects b kind f x
      (fun k v hv sets' hv' =>
        have : sizeOf v < 1 + sizeOf x := by
          have := List.sizeOf_lt_of_mem hv
          simp at this
          omega
        examineYAML_collects b kind f v sets' hv') sets hd
    simpa [examineYAML] using h
  | .str t, sets, _ =>
    ⟨sets, by simp [examineYAML], collects_refl _ _ _ (fun s => hasImage_str s t)⟩
  | .null, sets, _ =>
    ⟨sets, by simp [examineYAML], collects_refl _ _ _ (by
      rintro s ⟨n, hn, he⟩
      cases hn
      rcases he with ⟨x, hx, _⟩ | ⟨x, hx, _⟩ <;> cases hx)⟩
  | .bool _, sets, _ =>
    ⟨sets, by simp [examineYAML], collects_refl _ _ _ (by
      rintro s ⟨n, hn, he⟩
      cases hn
      rcases he with ⟨x, hx, _⟩ | ⟨x, hx, _⟩ <;> cases hx)⟩
  | .int _, sets, _ =>
    ⟨sets, by simp [examineYAML], collects_refl _ _ _ (by
      rintro s ⟨n, hn, he⟩
      cases hn
      rcases he with ⟨x, hx, _⟩ | ⟨x, hx, _⟩ <;> cases hx)⟩
  | .float _, sets, _ =>
    ⟨sets, by simp [examineYAML], collects_refl _ _ _ (by
      rintro s ⟨n, hn, he⟩
      cases hn
      rcases he with ⟨x, hx, _⟩ | ⟨x, hx, _⟩ <;> cases hx)⟩
termination_by d => sizeOf d
decreasing_by all_goals (simp_wf; omega)


theorem strings_Split_append_latest (p : String) :
    (strings.Split (p ++ ":latest") ':').getLast? = some "latest" := by
  have hd : (p ++ ":latest").data = p.data ++ ':' :: "latest".data := by
    rw [String.data_append]
  have hq : splitChars ':' "latest".data = ["latest".data] :=
    splitChars_of_not_mem _ _ (by decide)
  simp only [strings.Split, hd, splitChars_append_sep, hq, List.map_append, List.map_cons,
    List.map_nil]
  simp

/-! ## The claims -/

/-- C1: a reference whose last `:`-separated part is `latest` (in particular one that ends in
`:latest`, and the bare string `latest`) is classified invalid by `processImage`, whatever
its first `/`-separated segment is. -/
theorem processImage_latest_invalid (s : String)
    (h : (strings.Split s ':').getLast? = some "latest" ∨
      (∃ p : String, s = p ++ ":latest") ∨ s = "latest") :
    processImage s = some false := by
  have hl : (strings.Split s ':').getLast? = some "latest" := by
    rcases h with h | ⟨p, rfl⟩ | rfl
    · exact h
    · exact strings_Split_append_latest p
    · decide
  rw [processImage_eq, if_pos hl]

/-- Witness of C1 at `quay.io/foo:latest`, whose first segment is a known-valid registry. -/
theorem processImage_latest_invalid_witness :
    (splitImageName "quay.io/foo:latest").head? = some "quay.io" ∧
      "quay.io" ∈ validImagePrefixes ∧
      processImage "quay.io/foo:latest" = some false :=
  ⟨by decide, by decide, processImage_latest_invalid _ (Or.inl (by decide))⟩

/-- C2, counterexample: the first segment of `k8s1:5000/foo:latest` is `k8s1:5000`, yet
`processImage` returns a pointer to `false` and `examineYAML` in validation mode adds the
reference to the invalid set. -/
theorem processImage_ignored_latest_counterexample :
    (splitImageName "k8s1:5000/foo:latest").head? = some "k8s1:5000" ∧
      processImage "k8s1:5000/foo:latest" = some false ∧
      examineYAML true "yaml" "a.yaml"
        (.mapInterface [(.str "image", .str "k8s1:5000/foo:latest")]) (∅, ∅) =
        some (∅, {"k8s1:5000/foo:latest"}) := by
  decide

/-- C2, amended: a reference whose first `/`-separated segment is `k8s1:5000` and whose last
`:`-separated part is not `latest` is ignored: `processImage` returns nil, and
`examineYAML` in validation mode, on any document whose `"image"` values are strings, puts
it in neither set unless it was there before. -/
theorem processImage_ignored (s : String)
    (hseg : (splitImageName s).head? = some "k8s1:5000")
    (hlast : (strings.Split s ':').getLast? ≠ some "latest") :
    processImage s = none ∧
      ∀ (kind fileName : String) (d : Value) (validImages invalidImages : Finset String),
        ImagesAreStrings d →
        ∃ validImages' invalidImages',
          examineYAML true kind fileName d (validImages, invalidImages) =
            some (validImages', invalidImages') ∧
          (s ∈ validImages' ↔ s ∈ validImages) ∧
          (s ∈ invalidImages' ↔ s ∈ invalidImages) := by
  have hp : processImage s = none := by
    rw [processImage_eq, if_neg hlast, hseg]
    decide
  refine ⟨hp, ?_⟩
  intro kind fileName d vs is hd
  obtain ⟨⟨vs', is'⟩, e, c⟩ := examineYAML_collects true kind fileName d (vs, is) hd
  refine ⟨vs', is', e, ?_, ?_⟩
  · rw [c.1 s]; simp [hp]
  · rw [c.2 s]; simp [hp]

/-- Witness of the amended C2 at `k8s1:5000/foo:v1`. -/
theorem processImage_ignored_witness :
    (splitImageName "k8s1:5000/foo:v1").head? = some "k8s1:5000" ∧
      (strings.Split "k8s1:5000/foo:v1" ':').getLast? ≠ some "latest" ∧
      processImage "k8s1:5000/foo:v1" = none :=
  ⟨by decide, by decide, (processImage_ignored _ (by decide) (by decide)).1⟩

/-- C3: for a reference whose last `:`-separated part is not `latest` and whose first
`/`-separated segment is not `k8s1:5000`, `processImage` returns a pointer to `true` exactly
when the first segment is one of `docker.io`, `gcr.io`, `k8s.gcr.io`, `quay.io`, and a
pointer to `false` in every other case. -/
theorem processImage_valid_iff_known_registry (s : String)
    (hlast : (strings.Split s ':').getLast? ≠ some "latest")
    (hseg : (splitImageName s).head? ≠ some "k8s1:5000") :
    (processImage s = some true ↔
      ((splitImageName s).head? = some "docker.io" ∨
        (splitImageName s).head? = some "gcr.io" ∨
        (splitImageName s).head? = some "k8s.gcr.io" ∨
        (splitImageName s).head? = some "quay.io")) ∧
    (processImage s = some false ↔
      ¬ ((splitImageName s).head? = some "docker.io" ∨
        (splitImageName s).head? = some "gcr.io" ∨
        (splitImageName s).head? = some "k8s.gcr.io" ∨
        (splitImageName s).head? = some "quay.io")) := by
  rw [processImage_eq, if_neg hlast]
  cases hh : (splitImageName s).head? with
  | none =>
    exact absurd (List.head?_eq_none_iff.mp hh) (strings_Split_ne_nil s '/')
  | some seg =>
    have hne : seg ≠ "k8s1:5000" := fun e => hseg (by rw [hh, e])
    simp only [ignoreImagePrefixes, validImagePrefixes, Finset.mem_singleton, hne, if_false,
      Finset.mem_insert, Option.some.injEq]
    by_cases hv : seg = "docker.io" ∨ seg = "gcr.io" ∨ seg = "k8s.gcr.io" ∨ seg = "quay.io"
    · simp [hv]
    · simp [hv]

/-- Witness of C3: `gcr.io/foo/bar:v1` is valid and `myregistry.example.com/foo:v1` is
invalid. -/
theorem processImage_valid_iff_known_registry_witness :
    processImage "gcr.io/foo/bar:v1" = some true ∧
      processImage "myregistry.example.com/foo:v1" = some false :=
  ⟨(processImage_valid_iff_known_registry "gcr.io/foo/bar:v1" (by decide) (by decide)).1.mpr
      (Or.inr (Or.inl (by decide))),
    (processImage_valid_iff_known_registry "myregistry.example.com/foo:v1" (by decide)
      (by decide)).2.mpr (by decide)⟩

/-- C4: in validation mode, from empty sets, on a document whose `"image"` values are all
strings, `examineYAML` returns, and every string `s` attached to an `"image"` key at any
depth is in the valid set iff `processImage s` is true, in the invalid set iff it is false,
and in neither iff it is nil; the two sets are disjoint. -/
theorem examineYAML_validation_classifies (kind fileName : String) (d : Value)
    (hd : ImagesAreStrings d) :
    ∃ validImages invalidImages,
      examineYAML true kind fileName d (∅, ∅) = some (validImages, invalidImages) ∧
      (∀ s, HasImage s d →
        (s ∈ validImages ↔ processImage s = some true) ∧
        (s ∈ invalidImages ↔ processImage s = some false) ∧
        ((s ∉ validImages ∧ s ∉ invalidImages) ↔ processImage s = none)) ∧
      Disjoint validImages invalidImages := by
  obtain ⟨⟨vs, is⟩, e, c⟩ := examineYAML_collects true kind fileName d (∅, ∅) hd
  have cv : ∀ s, s ∈ vs ↔ HasImage s d ∧ processImage s = some true := by
    intro s
    have := c.1 s
    simpa using this
  have ci : ∀ s, s ∈ is ↔ HasImage s d ∧ processImage s = some false := by
    intro s
    have := c.2 s
    simpa using this
  refine ⟨vs, is, e, ?_, ?_⟩
  · intro s hs
    refine ⟨by simp [cv, hs], by simp [ci, hs], ?_⟩
    rw [cv, ci]
    cases hp : processImage s with
    | none => simp
    | some r => cases r <;> simp [hs]
  · rw [Finset.disjoint_left]
    intro s h1 h2
    have a := ((cv s).mp h1).2
    have b := ((ci s).mp h2).2
    rw [a] at b
    cases b

/-- C5: with validation disabled, on a document whose `"image"` values are all strings and
from any pair of sets, `examineYAML` returns; the valid set is then the initial valid set
together with exactly the strings attached to an `"image"` key at any depth, whatever
`processImage` would say of them, and the invalid set is unchanged. -/
theorem examineYAML_no_validation_collects (kind fileName : String) (d : Value)
    (validImages invalidImages : Finset String) (hd : ImagesAreStrings d) :
    ∃ validImages',
      examineYAML false kind fileName d (validImages, invalidImages) =
        some (validImages', invalidImages) ∧
      ∀ s, s ∈ validImages' ↔ s ∈ validImages ∨ HasImage s d := by
  obtain ⟨⟨vs, is⟩, e, c⟩ :=
    examineYAML_collects false kind fileName d (validImages, invalidImages) hd
  have hi : is = invalidImages := by
    ext s
    have := c.2 s
    simpa using this
  subst hi
  refine ⟨vs, e, ?_⟩
  intro s
  have := c.1 s
  simpa using this

/-- C6, the code at the failing input: on `{image: {image: "gcr.io/a:v1"}}` the type
assertion `v.(string)` panics, in both mapping branches and in both modes, and so it does
when the value under `"image"` is null, a number, a boolean or a sequence. -/
theorem examineYAML_panics_on_non_string_image :
    examineYAML false "yaml" "a.yaml"
        (.mapInterface [(.str "image", .mapInterface [(.str "image", .str "gcr.io/a:v1")])])
        (∅, ∅) = none ∧
      examineYAML true "yaml" "a.yaml"
        (.mapInterface [(.str "image", .mapInterface [(.str "image", .str "gcr.io/a:v1")])])
        (∅, ∅) = none ∧
      examineYAML false "json" "a.json"
        (.mapString [("image", .mapString [("image", .str "gcr.io/a:v1")])]) (∅, ∅) = none ∧
      examineYAML true "json" "a.json"
        (.mapString [("image", .mapString [("image", .str "gcr.io/a:v1")])]) (∅, ∅) = none ∧
      examineYAML false "yaml" "a.yaml" (.mapInterface [(.str "image", .null)]) (∅, ∅) = none ∧
      examineYAML false "json" "a.json" (.mapString [("image", .int 3)]) (∅, ∅) = none ∧
      examineYAML false "json" "a.json" (.mapString [("image", .bool true)]) (∅, ∅) = none ∧
      examineYAML false "json" "a.json"
        (.mapString [("image", .slice [.str "gcr.io/a:v1"])]) (∅, ∅) = none := by
  decide

theorem imagesAreStrings_str (t : String) : ImagesAreStrings (.str t) := by
  intro n v hn he
  cases hn
  rcases he with ⟨x, hx, _⟩ | ⟨x, hx, _⟩ <;> cases hx

theorem imagesAreStrings_slice_nil : ImagesAreStrings (.slice []) := by
  intro n v hn he
  rw [node_slice_iff] at hn
  rcases hn with rfl | ⟨u, hm, _⟩
  · rcases he with ⟨x, hx, _⟩ | ⟨x, hx, _⟩ <;> cases hx
  · cases hm

theorem imagesAreStrings_mapInterface_nil : ImagesAreStrings (.mapInterface []) := by
  intro n v hn he
  rw [node_mapInterface_iff] at hn
  rcases hn with rfl | ⟨k, u, hm, _⟩
  · rcases he with ⟨x, hx, hm⟩ | ⟨x, hx, _⟩
    · cases hx; cases hm
    · cases hx
  · cases hm

theorem imagesAreStrings_mapString_nil : ImagesAreStrings (.mapString []) := by
  intro n v hn he
  rw [node_mapString_iff] at hn
  rcases hn with rfl | ⟨k, u, hm, _⟩
  · rcases he with ⟨x, hx, _⟩ | ⟨x, hx, hm⟩
    · cases hx
    · cases hx; cases hm
  · cases hm

theorem imagesAreStrings_sampleDocument : ImagesAreStrings sampleDocument := by
  simp [sampleDocument, imagesAreStrings_mapInterface_cons, imagesAreStrings_mapString_cons,
    imagesAreStrings_slice_cons, imagesAreStrings_str, imagesAreStrings_slice_nil,
    imagesAreStrings_mapInterface_nil, imagesAreStrings_mapString_nil]

theorem hasImage_sampleDocument (s : String) :
    HasImage s sampleDocument ↔
      s = "gcr.io/a:v1" ∨ s = "k8s1:5000/b:v1" ∨ s = "x:latest" := by
  simp [sampleDocument, hasImage_mapInterface_cons, hasImage_mapString_cons,
    hasImage_slice_cons, hasImage_str, hasImage_slice_nil, hasImage_mapInterface_nil,
    hasImage_mapString_nil, eq_comm]

/-- Witness of C4 on the sample document. -/
theorem examineYAML_validation_classifies_witness :
    ImagesAreStrings sampleDocument ∧
      ∃ validImages invalidImages,
        examineYAML true "yaml" "a.yaml" sampleDocument (∅, ∅) =
          some (validImages, invalidImages) ∧
        Disjoint validImages invalidImages :=
  ⟨imagesAreStrings_sampleDocument,
    (examineYAML_validation_classifies "yaml" "a.yaml" sampleDocument
      imagesAreStrings_sampleDocument).imp
      (fun _ h => h.imp (fun _ h' => ⟨h'.1, h'.2.2⟩))⟩

/-- Witness of C5 on the sample document. -/
theorem examineYAML_no_validation_collects_witness :
    ImagesAreStrings sampleDocument ∧
      ∃ validImages',
        examineYAML false "yaml" "a.yaml" sampleDocument ({"seed"}, ∅) =
          some (validImages', ∅) ∧
        ∀ s, s ∈ validImages' ↔ s ∈ ({"seed"} : Finset String) ∨ HasImage s sampleDocument :=
  ⟨imagesAreStrings_sampleDocument,
    examineYAML_no_validation_collects "yaml" "a.yaml" sampleDocument {"seed"} ∅
      imagesAreStrings_sampleDocument⟩

theorem sampleDocument_eval :
    examineYAML true "yaml" "a.yaml" sampleDocument (∅, ∅) =
      some ({"gcr.io/a:v1"}, {"x:latest"}) := by
  decide

theorem decodeLoop_fold_from (b : Bool) (kind f : String) (dec : Decoder) :
    ∀ (docs : List Value) (fuel n : Nat) (sets : Finset String × Finset String),
      (∀ i d, docs[i]? = some d → dec (n + i) = (d, none)) →
      (dec (n + docs.length)).2 = some GoError.EOF →
      docs.length < fuel →
      decodeLoop b kind f dec fuel n sets =
        match docs.foldlM (fun st d => examineYAML b kind f d st) sets with
        | some r => Run.returns r
        | none => Run.panics := by
  intro docs
  induction docs with
  | nil =>
    intro fuel n sets _ heof hfuel
    obtain ⟨fuel, rfl⟩ : ∃ m, fuel = m + 1 := ⟨fuel - 1, by simp at hfuel; omega⟩
    simp only [List.length_nil, Nat.add_zero] at heof
    simp [decodeLoop, heof]
  | cons d rest ih =>
    intro fuel n sets hdocs heof hfuel
    obtain ⟨fuel, rfl⟩ : ∃ m, fuel = m + 1 := ⟨fuel - 1, by simp at hfuel; omega⟩
    have h0 : dec n = (d, none) := by
      have := hdocs 0 d (by simp)
      simpa using this
    simp only [decodeLoop, h0, List.foldlM_cons]
    cases he : examineYAML b kind f d sets with
    | none => simp
    | some sets' =>
      simp only [Option.some_bind, Option.bind_eq_bind, reduceCtorEq, if_false]
      apply ih fuel (n + 1) sets'
      · intro i d' hi
        have := hdocs (i + 1) d' (by simpa using hi)
        rw [← this]
        congr 1
        omega
      · rw [← heof]
        congr 2
        simp
        omega
      · simp at hfuel
        omega

theorem foldlM_examineYAML_collects (b : Bool) (kind f : String) :
    ∀ (docs : List Value) (sets : Finset String × Finset String),
      (∀ d, d ∈ docs → ImagesAreStrings d) →
      ∃ r, docs.foldlM (fun st d => examineYAML b kind f d st) sets = some r ∧
        Collects b (fun s => ∃ d, d ∈ docs ∧ HasImage s d) sets r := by
  intro docs
  induction docs with
  | nil =>
    intro sets _
    exact ⟨sets, by simp, collects_refl _ _ _ (by simp)⟩
  | cons d rest ih =>
    intro sets hd
    obtain ⟨r1, e1, c1⟩ :=
      examineYAML_collects b kind f d sets (hd d (List.mem_cons_self _ _))
    obtain ⟨r2, e2, c2⟩ := ih r1 (fun d' h => hd d' (List.mem_cons_of_mem _ h))
    refine ⟨r2, by simp [List.foldlM_cons, e1, e2], collects_trans c1 c2 ?_⟩
    intro s
    simp

/-- The decode loop on a well-formed file: when the decoder of a file yields the documents
`docs` one after the other and then `io.EOF`, the decode loop (the YAML one and the JSON
one, `kind` being the only difference) ends, given fuel for `docs.length + 1` calls of `Decode`, and its result is the fold of
`examineYAML` over the documents in order, a panic of `examineYAML` ending the run. With
validation disabled and `"image"` values that are strings, the loop returns and the valid
set then holds exactly the initial strings and the strings under an `"image"` key of any
of the documents. -/
theorem decodeLoop_folds_documents (validateImages : Bool) (kind fileName : String)
    (dec : Decoder) (docs : List Value) (fuel : Nat)
    (sets : Finset String × Finset String)
    (hdocs : ∀ i d, docs[i]? = some d → dec i = (d, none))
    (heof : (dec docs.length).2 = some GoError.EOF)
    (hfuel : docs.length < fuel) :
    (decodeLoop validateImages kind fileName dec fuel 0 sets =
      match docs.foldlM (fun st d => examineYAML validateImages kind fileName d st) sets with
      | some r => Run.returns r
      | none => Run.panics) ∧
    (validateImages = false → (∀ d, d ∈ docs → ImagesAreStrings d) →
      ∃ validImages',
        decodeLoop validateImages kind fileName dec fuel 0 sets =
          Run.returns (validImages', sets.2) ∧
        ∀ s, s ∈ validImages' ↔ s ∈ sets.1 ∨ ∃ d, d ∈ docs ∧ HasImage s d) := by
  have hfold := decodeLoop_fold_from validateImages kind fileName dec docs fuel 0 sets
    (by simpa using hdocs) (by simpa using heof) hfuel
  refine ⟨hfold, ?_⟩
  intro hb hd
  subst hb
  obtain ⟨⟨vs, is⟩, e, c⟩ := foldlM_examineYAML_collects false kind fileName docs sets hd
  have hi : is = sets.2 := by
    ext s
    have := c.2 s
    simpa using this
  subst hi
  refine ⟨vs, by rw [hfold, e], ?_⟩
  intro s
  have := c.1 s
  simpa using this

/-- An instance of `decodeLoop_folds_documents`: a file of two documents, the first without
an `"image"` key; the string under the `"image"` key of the second one is in the valid set
after the JSON loop. -/
theorem decodeLoop_folds_documents_witness :
    decodeLoop false "json" "a.json"
        (decoderOf [.mapString [("name", .str "x")], .mapString [("image", .str "b:latest")]])
        3 0 (∅, ∅) =
      Run.returns ({"b:latest"}, ∅) :=
  (decodeLoop_folds_documents false "json" "a.json"
    (decoderOf [.mapString [("name", .str "x")], .mapString [("image", .str "b:latest")]])
    [.mapString [("name", .str "x")], .mapString [("image", .str "b:latest")]] 3 (∅, ∅)
    (by intro i d h; simp [decoderOf, h]) (by simp [decoderOf]) (by decide)).1.trans
    (by decide)

theorem foldl_append_singleton (init l : List String) :
    l.foldl (fun acc img => acc ++ [img]) init = init ++ l := by
  induction l generalizing init with
  | nil => simp
  | cons a rest ih => simp [ih]

theorem printMapSortedByKeys_eq (rangeKeys : List String) :
    printMapSortedByKeys rangeKeys =
      (sort.Strings rangeKeys).foldl (fun out img => out ++ (img ++ "\n")) "" := by
  simp [printMapSortedByKeys, foldl_append_singleton]

theorem sort_Strings_perm (x : List String) : (sort.Strings x).Perm x :=
  List.perm_insertionSort _ x

theorem sort_Strings_sorted (x : List String) : (sort.Strings x).Sorted (fun a b => a ≤ b) :=
  List.sorted_insertionSort _ x

theorem foldl_print_data (l : List String) (init : String) :
    (l.foldl (fun out img => out ++ (img ++ "\n")) init).data =
      init.data ++ l.foldr (fun k acc => k.data ++ '\n' :: acc) [] := by
  induction l generalizing init with
  | nil => simp
  | cons a rest ih =>
    simp only [List.foldl_cons, List.foldr_cons, ih, String.data_append]
    have : ("\n" : String).data = ['\n'] := rfl
    simp [this]

theorem splitChars_print_data (l : List String) (h : ∀ k, k ∈ l → '\n' ∉ k.data) :
    splitChars '\n' (l.foldr (fun k acc => k.data ++ '\n' :: acc) []) =
      l.map String.data ++ [[]] := by
  induction l with
  | nil => simp [splitChars]
  | cons a rest ih =>
    simp only [List.foldr_cons, splitChars_append_sep, List.map_cons, List.cons_append]
    rw [splitChars_of_not_mem _ _ (h a (List.mem_cons_self _ _)),
      ih (fun k hk => h k (List.mem_cons_of_mem _ hk))]
    simp

theorem linesOf_print (l : List String) (h : ∀ k, k ∈ l → '\n' ∉ k.data) :
    linesOf (l.foldl (fun out img => out ++ (img ++ "\n")) "") = l := by
  have hd := foldl_print_data l ""
  have hs : strings.Split (l.foldl (fun out img => out ++ (img ++ "\n")) "") '\n' =
      l ++ [""] := by
    simp only [strings.Split, hd]
    rw [List.nil_append, splitChars_print_data l h]
    simp only [List.map_append, List.map_map, List.map_cons, List.map_nil]
    congr 1
    conv_rhs => rw [← List.map_id l]
    apply List.map_congr_left
    intro k _
    rfl
  simp [linesOf, hs]

/-- C8, counterexample: for the set of the two strings `a` and `a<newline>b` the program
writes `a`, a newline, `a`, a newline, `b`, a newline: the lines of the output are `a`, `a`,
`b`, with a duplicate and with the line `b`, which is not an element of the set. -/
theorem printMapSortedByKeys_newline_counterexample :
    IsRangeOf {"a", "a\nb"} ["a\nb", "a"] ∧
      printMapSortedByKeys ["a\nb", "a"] = "a\na\nb\n" ∧
      linesOf (printMapSortedByKeys ["a\nb", "a"]) = ["a", "a", "b"] ∧
      ¬ (linesOf (printMapSortedByKeys ["a\nb", "a"])).Nodup ∧
      "b" ∈ linesOf (printMapSortedByKeys ["a\nb", "a"]) ∧
      "b" ∉ ({"a", "a\nb"} : Finset String) := by
  have hlt : ("a" : String) < "a\nb" := by
    rw [String.lt_iff_toList_lt]
    decide
  have hsort : sort.Strings ["a\nb", "a"] = ["a", "a\nb"] := by
    simp [sort.Strings, List.insertionSort, List.orderedInsert, not_le.mpr hlt]
  have hout : printMapSortedByKeys ["a\nb", "a"] = "a\na\nb\n" := by
    rw [printMapSortedByKeys_eq, hsort]
    decide
  have hlines : linesOf (printMapSortedByKeys ["a\nb", "a"]) = ["a", "a", "b"] := by
    rw [hout]
    decide
  refine ⟨⟨by decide, ?_⟩, hout, hlines, ?_, ?_, by decide⟩
  · intro k
    simp only [List.mem_cons, Finset.mem_insert, Finset.mem_singleton, List.not_mem_nil,
      or_false]
    tauto
  · rw [hlines]
    decide
  · rw [hlines]
    decide

/-- C8, amended: for every set of strings and every order in which `range` visits it,
`printMapSortedByKeys` writes the elements of the set, each followed by a newline, in
strictly increasing lexicographic order: every element once and nothing else, and the same
text for every other visiting order. When no element contains a newline, the lines of the
output are these entries, so they are sorted, without duplicate and exactly the elements
of the set. -/
theorem printMapSortedByKeys_sorted_entries (strMap : Finset String)
    (rangeKeys : List String) (h : IsRangeOf strMap rangeKeys) :
    ∃ entries : List String,
      entries.Sorted (fun a b => a < b) ∧ entries.Nodup ∧
      (∀ k, k ∈ entries ↔ k ∈ strMap) ∧ entries.length = strMap.card ∧
      printMapSortedByKeys rangeKeys =
        entries.foldl (fun out img => out ++ (img ++ "\n")) "" ∧
      (∀ otherKeys, IsRangeOf strMap otherKeys →
        printMapSortedByKeys otherKeys = printMapSortedByKeys rangeKeys) ∧
      ((∀ k, k ∈ strMap → '\n' ∉ k.data) →
        linesOf (printMapSortedByKeys rangeKeys) = entries) := by
  have hperm := sort_Strings_perm rangeKeys
  have hnodup : (sort.Strings rangeKeys).Nodup := hperm.nodup_iff.mpr h.1
  have hsorted := sort_Strings_sorted rangeKeys
  have hmem : ∀ k, k ∈ sort.Strings rangeKeys ↔ k ∈ strMap := by
    intro k
    rw [hperm.mem_iff]
    exact h.2 k
  refine ⟨sort.Strings rangeKeys, hsorted.lt_of_le hnodup, hnodup, hmem, ?_,
    printMapSortedByKeys_eq rangeKeys, ?_, ?_⟩
  · rw [hperm.length_eq, ← List.toFinset_card_of_nodup h.1]
    congr 1
    ext k
    simp [h.2 k]
  · intro otherKeys ho
    have hp : (sort.Strings otherKeys).Perm (sort.Strings rangeKeys) := by
      refine (sort_Strings_perm otherKeys).trans (List.Perm.trans ?_ hperm.symm)
      rw [List.perm_ext_iff_of_nodup ho.1 h.1]
      intro k
      rw [ho.2 k, h.2 k]
    rw [printMapSortedByKeys_eq, printMapSortedByKeys_eq,
      List.eq_of_perm_of_sorted hp (sort_Strings_sorted otherKeys) hsorted]
  · intro hnl
    rw [printMapSortedByKeys_eq]
    exact linesOf_print _ (fun k hk => hnl k ((hmem k).mp hk))

theorem isRangeOf_sample_bca : IsRangeOf {"b", "a", "c"} ["b", "c", "a"] :=
  ⟨by decide, by intro k; simp only [List.mem_cons, Finset.mem_insert,
    Finset.mem_singleton, List.mem_singleton, List.not_mem_nil, or_false]; tauto⟩

theorem isRangeOf_sample_cab : IsRangeOf {"b", "a", "c"} ["c", "a", "b"] :=
  ⟨by decide, by intro k; simp only [List.mem_cons, Finset.mem_insert,
    Finset.mem_singleton, List.mem_singleton, List.not_mem_nil, or_false]; tauto⟩

/-- Witness of the amended C8: the set `{"b", "a", "c"}` visited in the order `b, c, a`; its
elements hold no newline, and the order `c, a, b` gives the same text. -/
theorem printMapSortedByKeys_sorted_entries_witness :
    IsRangeOf {"b", "a", "c"} ["b", "c", "a"] ∧
      ∃ entries : List String,
        entries.Sorted (fun a b => a < b) ∧
        (∀ k, k ∈ entries ↔ k ∈ ({"b", "a", "c"} : Finset String)) ∧
        printMapSortedByKeys ["c", "a", "b"] = printMapSortedByKeys ["b", "c", "a"] ∧
        linesOf (printMapSortedByKeys ["b", "c", "a"]) = entries :=
  ⟨isRangeOf_sample_bca,
    (printMapSortedByKeys_sorted_entries {"b", "a", "c"} ["b", "c", "a"]
      isRangeOf_sample_bca).imp
      (fun _ hh => ⟨hh.1, hh.2.2.1, hh.2.2.2.2.2.1 ["c", "a", "b"] isRangeOf_sample_cab,
        hh.2.2.2.2.2.2 (by decide)⟩)⟩

theorem printMapSortedByKeys_sample :
    printMapSortedByKeys ["b", "c", "a"] = "a\nb\nc\n" := by
  have hsort : sort.Strings ["b", "c", "a"] = ["a", "b", "c"] := by
    simp only [sort.Strings, List.insertionSort, List.orderedInsert, String.le_iff_toList_le]
    decide
  rw [printMapSortedByKeys_eq, hsort]
  decide

theorem strings_HasSuffix_iff (s suffix : String) :
    strings.HasSuffix s suffix = true ↔ ∃ p : String, s = p ++ suffix := by
  simp only [strings.HasSuffix, decide_eq_true_eq]
  constructor
  · rintro ⟨_, hdrop⟩
    refine ⟨String.mk (s.data.take (s.data.length - suffix.data.length)), ?_⟩
    apply String.ext
    rw [String.data_append]
    have := List.take_append_drop (s.data.length - suffix.data.length) s.data
    rw [hdrop] at this
    exact this.symm
  · rintro ⟨p, rfl⟩
    simp [String.data_append]

theorem not_HasSuffix_json_of_yaml (s : String)
    (h : strings.HasSuffix s "yaml" = true ∨ strings.HasSuffix s "yml" = true) :
    strings.HasSuffix s "json" = false := by
  rw [Bool.eq_false_iff]
  intro hj
  rw [strings_HasSuffix_iff] at hj
  obtain ⟨q, hq⟩ := hj
  have hlast : s.data.getLast? = some 'n' := by
    rw [hq, String.data_append]
    simp [List.getLast?_append]
  rcases h with h | h <;> rw [strings_HasSuffix_iff] at h <;> obtain ⟨p, hp⟩ := h <;>
    rw [hp, String.data_append] at hlast
  · have : (p.data ++ "yaml".data).getLast? = some 'l' := by
      simp [List.getLast?_append]
    rw [this] at hlast
    exact absurd hlast (by decide)
  · have : (p.data ++ "yml".data).getLast? = some 'l' := by
      simp [List.getLast?_append]
    rw [this] at hlast
    exact absurd hlast (by decide)

/-- C9, counterexample: the names `fooyaml`, `data.notyml` and `myjson` do not end in
`.yaml`, `.yml` or `.json`, yet the callback reads each of them and builds a decoder over
it (a YAML one for the first two, a JSON one for the third). -/
theorem walkFn_reads_names_without_dot :
    strings.HasSuffix "fooyaml" ".yaml" = false ∧
      strings.HasSuffix "data.notyml" ".yml" = false ∧
      strings.HasSuffix "myjson" ".json" = false ∧
      (walkFn false emptyFilesEnv 1 "fooyaml" none (∅, ∅)).1 =
        [Event.readFile "fooyaml", Event.newDecoder "yaml"] ∧
      (walkFn false emptyFilesEnv 1 "data.notyml" none (∅, ∅)).1 =
        [Event.readFile "data.notyml", Event.newDecoder "yaml"] ∧
      (walkFn false emptyFilesEnv 1 "myjson" none (∅, ∅)).1 =
        [Event.readFile "myjson", Event.newDecoder "json"] := by
  decide

/-- C9, amended: the callback reads the visited file if and only if its name ends in `yaml`,
`yml` or `json` (no dot is asked for). A file that is read without error is decoded as YAML
when the name ends in `yaml` or `yml` and as JSON when it ends in `json`; for every other
name the callback returns nil at once, with no read, no decoder and the sets unchanged. -/
theorem walkFn_reads_iff_suffix (validateImages : Bool) (env : Env) (fuel : Nat)
    (fileName : String) (err : Option GoError) (sets : Finset String × Finset String) :
    (Event.readFile fileName ∈ (walkFn validateImages env fuel fileName err sets).1 ↔
      ((∃ p : String, fileName = p ++ "yaml") ∨ (∃ p : String, fileName = p ++ "yml") ∨
        (∃ p : String, fileName = p ++ "json"))) ∧
    (Event.newDecoder "yaml" ∈ (walkFn validateImages env fuel fileName err sets).1 ↔
      ((∃ p : String, fileName = p ++ "yaml") ∨ (∃ p : String, fileName = p ++ "yml")) ∧
        ∃ content, env.readFile fileName = .ok content) ∧
    (Event.newDecoder "json" ∈ (walkFn validateImages env fuel fileName err sets).1 ↔
      (∃ p : String, fileName = p ++ "json") ∧
        ∃ content, env.readFile fileName = .ok content) ∧
    (¬ ((∃ p : String, fileName = p ++ "yaml") ∨ (∃ p : String, fileName = p ++ "yml") ∨
        (∃ p : String, fileName = p ++ "json")) →
      walkFn validateImages env fuel fileName err sets = ([], Run.returns (none, sets))) := by
  simp only [← strings_HasSuffix_iff]
  by_cases hy : strings.HasSuffix fileName "yaml" = true ∨
      strings.HasSuffix fileName "yml" = true
  · have hj := not_HasSuffix_json_of_yaml fileName hy
    have hy' : (strings.HasSuffix fileName "yaml" || strings.HasSuffix fileName "yml") =
        true := by simpa using hy
    cases hr : env.readFile fileName with
    | error e => simp [walkFn, hy', hr, hy, hj]
    | ok content => simp [walkFn, hy', hr, hy, hj]
  · have hy' : (strings.HasSuffix fileName "yaml" || strings.HasSuffix fileName "yml") =
        false := by simpa using hy
    have hy1 : strings.HasSuffix fileName "yaml" = false := by
      simpa using fun h => hy (Or.inl h)
    have hy2 : strings.HasSuffix fileName "yml" = false := by
      simpa using fun h => hy (Or.inr h)
    by_cases hj : strings.HasSuffix fileName "json" = true
    · cases hr : env.readFile fileName with
      | error e => simp [walkFn, hy', hr, hy1, hy2, hj]
      | ok content => simp [walkFn, hy', hr, hy1, hy2, hj]
    · have hj' : strings.HasSuffix fileName "json" = false := by simpa using hj
      simp [walkFn, hy', hy1, hy2, hj']

/-- Witness of the amended C9: `notes.txt` is skipped without being read. -/
theorem walkFn_reads_iff_suffix_witness :
    walkFn true emptyFilesEnv 1 "notes.txt" none (∅, ∅) = ([], Run.returns (none, (∅, ∅))) :=
  (walkFn_reads_iff_suffix true emptyFilesEnv 1 "notes.txt" none (∅, ∅)).2.2.2 (by
    simp only [← strings_HasSuffix_iff]
    decide)

theorem decodeLoop_stuckDecoder (b : Bool) (kind f : String) :
    ∀ (fuel n : Nat) (sets : Finset String × Finset String),
      decodeLoop b kind f stuckDecoder fuel n sets = Run.outOfFuel := by
  intro fuel
  induction fuel with
  | zero => intro n sets; rfl
  | succ fuel ih =>
    intro n sets
    simp [decodeLoop, stuckDecoder, examineYAML, ih]

/-- C10, the code on a decoder that keeps returning the same error other than `io.EOF`
(a `*json.Decoder` over a file whose content is `{`): for every amount of fuel the decode
loop, and with it the callback on that file, has not ended; and a value left by a failed
`Decode` is handed to `examineYAML` all the same. -/
theorem decodeLoop_ignores_decode_errors :
    (∀ (validateImages : Bool) (kind fileName : String) (fuel n : Nat)
        (sets : Finset String × Finset String),
        decodeLoop validateImages kind fileName stuckDecoder fuel n sets = Run.outOfFuel) ∧
      (∀ (validateImages : Bool) (fuel : Nat) (sets : Finset String × Finset String),
        (walkFn validateImages brokenJsonEnv fuel "bad.json" none sets).2 = Run.outOfFuel) ∧
      decodeLoop false "yaml" "a.yaml"
          (fun n =>
            if n = 0 then (.mapInterface [(.str "image", .str "x")], some (.other "error"))
            else (.null, some GoError.EOF))
          2 0 (∅, ∅) =
        Run.returns ({"x"}, ∅) := by
  refine ⟨fun b kind f fuel n sets => decodeLoop_stuckDecoder b kind f fuel n sets, ?_, ?_⟩
  · intro b fuel sets
    have hj : strings.HasSuffix "bad.json" "json" = true := by decide
    have hy : (strings.HasSuffix "bad.json" "yaml" || strings.HasSuffix "bad.json" "yml") =
        false := by decide
    simp [walkFn, hj, hy, brokenJsonEnv, decodeLoop_stuckDecoder]
  · decide

theorem walkFn_returns_nil (validateImages : Bool) (env : Env) (fuel : Nat)
    (fileName : String) (err : Option GoError) (sets : Finset String × Finset String)
    (e : GoError) (sets' : Finset String × Finset String) :
    (walkFn validateImages env fuel fileName err sets).2 ≠ Run.returns (some e, sets') := by
  unfold walkFn
  split
  · split
    · simp
    · simp only
      split <;> simp
  · split
    · split
      · simp
      · simp only
        split <;> simp
    · simp

theorem filepath_Walk_walkFn_returns_nil (validateImages : Bool) (env : Env) (fuel : Nat) :
    ∀ (visits : List (String × Option GoError)) (sets : Finset String × Finset String)
      (e : GoError) (sets' : Finset String × Finset String),
      filepath.Walk (walkFn validateImages env fuel) visits sets ≠
        Run.returns (some e, sets') := by
  intro visits
  induction visits with
  | nil => intro sets e sets'; simp [filepath.Walk]
  | cons visit rest ih =>
    obtain ⟨path, err⟩ := visit
    intro sets e sets'
    unfold filepath.Walk
    split
    · exact ih _ e sets'
    · rename_i e' s' h
      exact absurd h (walkFn_returns_nil validateImages env fuel path err sets e' s')
    · simp
    · simp

/-- C11, the code when the walk reports an error for a path: the callback never returns an
error that is not nil, whatever `err` it is called with, so `filepath.Walk` returns nil and
`getImageNamesFromFilesInDirectory` never takes its `log.Fatalf` branch; on a directory
that does not exist it returns normally with the sets unchanged. -/
theorem getImageNamesFromFilesInDirectory_never_fatal :
    (∀ (validateImages : Bool) (env : Env) (fuel : Nat) (fileName : String)
        (err : Option GoError) (sets : Finset String × Finset String) (e : GoError)
        (sets' : Finset String × Finset String),
        (walkFn validateImages env fuel fileName err sets).2 ≠
          Run.returns (some e, sets')) ∧
      (∀ (validateImages : Bool) (env : Env) (fuel : Nat)
        (visits : List (String × Option GoError)) (sets : Finset String × Finset String)
        (e : GoError),
        getImageNamesFromFilesInDirectory validateImages env fuel visits sets ≠
          Run.returns (Except.error e)) ∧
      getImageNamesFromFilesInDirectory true emptyFilesEnv 1
          [("/no/such/dir", some (GoError.other "lstat /no/such/dir: no such file or directory"))]
          ({"seed"}, ∅) =
        Run.returns (Except.ok ({"seed"}, ∅)) := by
  refine ⟨walkFn_returns_nil, ?_, ?_⟩
  · intro b env fuel visits sets e
    unfold getImageNamesFromFilesInDirectory
    split
    · rename_i e' s' h
      exact absurd h (filepath_Walk_walkFn_returns_nil b env fuel visits sets e' s')
    · simp
    · simp
    · simp
  · have hy : (strings.HasSuffix "/no/such/dir" "yaml" ||
        strings.HasSuffix "/no/such/dir" "yml") = false := by decide
    have hj : strings.HasSuffix "/no/such/dir" "json" = false := by decide
    simp [getImageNamesFromFilesInDirectory, filepath.Walk, walkFn, hy, hj]

/-- C16: for every string, the empty one included, the split on `:` and the split on `/`
have at least one part, so the indices `len - 1` and `0` of `processImage` are in bounds
and its two `else` branches for an empty split are never taken: `processImage` is the
three-way test on the last `:`-part and the first `/`-segment alone. The empty string has
the single part `""` for both splits and is classified invalid by the last `return`. -/
theorem processImage_splits_nonempty :
    (∀ s : String, 0 < (strings.Split s ':').length ∧
        (strings.Split s ':').length - 1 < (strings.Split s ':').length ∧
        0 < (splitImageName s).length) ∧
      (∀ s : String, ∃ last seg,
        (strings.Split s ':').getLast? = some last ∧ (splitImageName s).head? = some seg ∧
        processImage s =
          if last = "latest" then some false
          else if seg ∈ ignoreImagePrefixes then none
          else if seg ∈ validImagePrefixes then some true
          else some false) ∧
      strings.Split "" ':' = [""] ∧ splitImageName "" = [""] ∧
      "" ∉ ignoreImagePrefixes ∧ "" ∉ validImagePrefixes ∧
      processImage "" = some false := by
  refine ⟨?_, ?_, by decide, by decide, by decide, by decide, by decide⟩
  · intro s
    have h1 : 0 < (strings.Split s ':').length :=
      List.length_pos.mpr (strings_Split_ne_nil s ':')
    exact ⟨h1, by omega, List.length_pos.mpr (strings_Split_ne_nil s '/')⟩
  · intro s
    cases hl : (strings.Split s ':').getLast? with
    | none => exact absurd (List.getLast?_eq_none_iff.mp hl) (strings_Split_ne_nil s ':')
    | some last =>
      cases hh : (splitImageName s).head? with
      | none => exact absurd (List.head?_eq_none_iff.mp hh) (strings_Split_ne_nil s '/')
      | some seg =>
        refine ⟨last, seg, rfl, rfl, ?_⟩
        rw [processImage_eq, hl, hh]
        simp only [Option.some.injEq]

theorem collects_unique {b : Bool} {P Q : String → Prop}
    {sets r1 r2 : Finset String × Finset String}
    (h1 : Collects b P sets r1) (h2 : Collects b Q sets r2) (hPQ : ∀ s, P s ↔ Q s) :
    r1 = r2 := by
  apply Prod.ext
  · ext s
    rw [h1.1 s, h2.1 s, hPQ s]
  · ext s
    rw [h1.2 s, h2.2 s, hPQ s]

theorem hasImage_mapInterface_iff (s : String) (x : List (Key × Value)) :
    HasImage s (.mapInterface x) ↔
      (Key.str "image", Value.str s) ∈ x ∨ ∃ k v, (k, v) ∈ x ∧ HasImage s v := by
  induction x with
  | nil => simp [hasImage_mapInterface_nil]
  | cons kv rest ih =>
    obtain ⟨k, v⟩ := kv
    rw [hasImage_mapInterface_cons, ih]
    simp only [List.mem_cons, Prod.mk.injEq]
    constructor
    · rintro (⟨rfl, rfl⟩ | h | h | ⟨k', v', hm, hv⟩)
      · exact Or.inl (Or.inl ⟨rfl, rfl⟩)
      · exact Or.inr ⟨k, v, Or.inl ⟨rfl, rfl⟩, h⟩
      · exact Or.inl (Or.inr h)
      · exact Or.inr ⟨k', v', Or.inr hm, hv⟩
    · rintro ((⟨h1, h2⟩ | h) | ⟨k', v', (⟨rfl, rfl⟩ | hm), hv⟩)
      · exact Or.inl ⟨h1.symm, h2.symm⟩
      · exact Or.inr (Or.inr (Or.inl h))
      · exact Or.inr (Or.inl hv)
      · exact Or.inr (Or.inr (Or.inr ⟨k', v', hm, hv⟩))

theorem hasImage_mapString_iff (s : String) (x : List (String × Value)) :
    HasImage s (.mapString x) ↔
      ("image", Value.str s) ∈ x ∨ ∃ k v, (k, v) ∈ x ∧ HasImage s v := by
  induction x with
  | nil => simp [hasImage_mapString_nil]
  | cons kv rest ih =>
    obtain ⟨k, v⟩ := kv
    rw [hasImage_mapString_cons, ih]
    simp only [List.mem_cons, Prod.mk.injEq]
    constructor
    · rintro (⟨rfl, rfl⟩ | h | h | ⟨k', v', hm, hv⟩)
      · exact Or.inl (Or.inl ⟨rfl, rfl⟩)
      · exact Or.inr ⟨k, v, Or.inl ⟨rfl, rfl⟩, h⟩
      · exact Or.inl (Or.inr h)
      · exact Or.inr ⟨k', v', Or.inr hm, hv⟩
    · rintro ((⟨h1, h2⟩ | h) | ⟨k', v', (⟨rfl, rfl⟩ | hm), hv⟩)
      · exact Or.inl ⟨h1.symm, h2.symm⟩
      · exact Or.inr (Or.inr (Or.inl h))
      · exact Or.inr (Or.inl hv)
      · exact Or.inr (Or.inr (Or.inr ⟨k', v', hm, hv⟩))

theorem hasImage_slice_iff (s : String) (x : List Value) :
    HasImage s (.slice x) ↔ ∃ v, v ∈ x ∧ HasImage s v := by
  induction x with
  | nil => simp [hasImage_slice_nil]
  | cons v rest ih =>
    rw [hasImage_slice_cons, ih]
    simp

theorem imagesAreStrings_mapInterface_iff (x : List (Key × Value)) :
    ImagesAreStrings (.mapInterface x) ↔
      (∀ v, (Key.str "image", v) ∈ x → ∃ s, v = .str s) ∧
        ∀ k v, (k, v) ∈ x → ImagesAreStrings v := by
  induction x with
  | nil => simp [imagesAreStrings_mapInterface_nil]
  | cons kv rest ih =>
    obtain ⟨k, v⟩ := kv
    rw [imagesAreStrings_mapInterface_cons, ih]
    simp only [List.mem_cons, Prod.mk.injEq]
    constructor
    · rintro ⟨h1, h2, h3, h4⟩
      refine ⟨?_, ?_⟩
      · rintro w (⟨hk, rfl⟩ | hm)
        · exact h1 hk.symm
        · exact h3 w hm
      · rintro k' w (⟨rfl, rfl⟩ | hm)
        · exact h2
        · exact h4 k' w hm
    · rintro ⟨h1, h2⟩
      exact ⟨fun hk => h1 v (Or.inl ⟨hk.symm, rfl⟩), h2 k v (Or.inl ⟨rfl, rfl⟩),
        fun w hm => h1 w (Or.inr hm), fun k' w hm => h2 k' w (Or.inr hm)⟩

theorem imagesAreStrings_mapString_iff (x : List (String × Value)) :
    ImagesAreStrings (.mapString x) ↔
      (∀ v, ("image", v) ∈ x → ∃ s, v = .str s) ∧
        ∀ k v, (k, v) ∈ x → ImagesAreStrings v := by
  induction x with
  | nil => simp [imagesAreStrings_mapString_nil]
  | cons kv rest ih =>
    obtain ⟨k, v⟩ := kv
    rw [imagesAreStrings_mapString_cons, ih]
    simp only [List.mem_cons, Prod.mk.injEq]
    constructor
    · rintro ⟨h1, h2, h3, h4⟩
      refine ⟨?_, ?_⟩
      · rintro w (⟨hk, rfl⟩ | hm)
        · exact h1 hk.symm
        · exact h3 w hm
      · rintro k' w (⟨rfl, rfl⟩ | hm)
        · exact h2
        · exact h4 k' w hm
    · rintro ⟨h1, h2⟩
      exact ⟨fun hk => h1 v (Or.inl ⟨hk.symm, rfl⟩), h2 k v (Or.inl ⟨rfl, rfl⟩),
        fun w hm => h1 w (Or.inr hm), fun k' w hm => h2 k' w (Or.inr hm)⟩

theorem imagesAreStrings_slice_iff (x : List Value) :
    ImagesAreStrings (.slice x) ↔ ∀ v, v ∈ x → ImagesAreStrings v := by
  induction x with
  | nil => simp [imagesAreStrings_slice_nil]
  | cons v rest ih =>
    rw [imagesAreStrings_slice_cons, ih]
    simp

theorem examineYAML_no_validation_aux (kind f : String) (d : Value)
    (sets : Finset String × Finset String) (hd : ImagesAreStrings d) :
    ∃ vs', examineYAML false kind f d sets = some (vs', sets.2) ∧
      ∀ s, s ∈ vs' ↔ s ∈ sets.1 ∨ HasImage s d := by
  obtain ⟨⟨vs, is⟩, e, c⟩ := examineYAML_collects false kind f d sets hd
  have hi : is = sets.2 := by
    ext s
    have := c.2 s
    simpa using this
  subst hi
  refine ⟨vs, e, ?_⟩
  intro s
  have := c.1 s
  simpa using this

/-- Keys that are not strings: in the `map[interface{}]interface{}` branch an entry whose key
is not a string is not matched against `"image"` and adds nothing itself, whatever its
value is; the loop only recurses into the value. With validation disabled and `"image"`
values that are strings, a string under an `"image"` key at any
depth below such an entry is in the valid set after `examineYAML`. -/
theorem examineYAML_non_string_key (kind fileName : String) (k : Key)
    (hk : ∀ t, k ≠ Key.str t) :
    (∀ (validateImages : Bool) (v : Value) (rest : List (Key × Value))
        (sets : Finset String × Finset String),
        examineMapInterface validateImages kind fileName ((k, v) :: rest) sets =
          (examineYAML validateImages kind fileName v sets).bind
            (examineMapInterface validateImages kind fileName rest)) ∧
      (∀ (validateImages : Bool) (t : String) (sets : Finset String × Finset String),
        examineYAML validateImages kind fileName (.mapInterface [(k, .str t)]) sets =
          some sets) ∧
      (∀ (v : Value) (x : List (Key × Value)) (sets : Finset String × Finset String),
        (k, v) ∈ x → ImagesAreStrings (.mapInterface x) →
        ∃ validImages',
          examineYAML false kind fileName (.mapInterface x) sets =
            some (validImages', sets.2) ∧
          ∀ s, HasImage s v → s ∈ validImages') := by
  have hne : k ≠ Key.str "image" := hk "image"
  refine ⟨?_, ?_, ?_⟩
  · intro b v rest sets
    exact examineMapInterface_other b kind fileName k v rest sets hne
  · intro b t sets
    simp [examineYAML, examineMapInterface_other b kind fileName k _ _ sets hne,
      examineMapInterface]
  · intro v x sets hm hd
    obtain ⟨vs', e, hv⟩ :=
      examineYAML_no_validation_aux kind fileName (.mapInterface x) sets hd
    refine ⟨vs', e, ?_⟩
    intro s hs
    rw [hv s]
    exact Or.inr ((hasImage_mapInterface_iff s x).mpr (Or.inr ⟨k, v, hm, hs⟩))

/-- An instance of `examineYAML_non_string_key`: below the integer key `5`, the string under `"image"` is collected, and
the string that is the value of the key `5` itself is not. -/
theorem examineYAML_non_string_key_witness :
    examineYAML false "yaml" "a.yaml"
        (.mapInterface [(.int 5, .str "b:v1")]) (∅, ∅) = some (∅, ∅) ∧
      ∃ validImages',
        examineYAML false "yaml" "a.yaml"
            (.mapInterface [(.int 5, .mapInterface [(.str "image", .str "a:latest")])])
            (∅, ∅) =
          some (validImages', ∅) ∧
        ∀ s, HasImage s (.mapInterface [(.str "image", .str "a:latest")]) →
          s ∈ validImages' :=
  ⟨(examineYAML_non_string_key "yaml" "a.yaml" (.int 5) (by intro t; simp)).2.1
      false "b:v1" (∅, ∅),
    (examineYAML_non_string_key "yaml" "a.yaml" (.int 5) (by intro t; simp)).2.2
      (.mapInterface [(.str "image", .str "a:latest")])
      [(.int 5, .mapInterface [(.str "image", .str "a:latest")])] (∅, ∅) (by simp)
      (by simp [imagesAreStrings_mapInterface_cons, imagesAreStrings_str,
        imagesAreStrings_mapInterface_nil])⟩

/-- C13: the accumulated sets do not depend on the order of processing, in both modes. For
documents whose `"image"` values are strings, `examineYAML` on `d1` then `d2` and on `d2`
then `d1` return the same pair of sets; and a mapping (of either kind) or a sequence gives
the same pair for every order of its entries. -/
theorem examineYAML_order_independent (validateImages : Bool) (kind fileName : String)
    (d1 d2 : Value) (sets : Finset String × Finset String)
    (h1 : ImagesAreStrings d1) (h2 : ImagesAreStrings d2) :
    (∃ r,
      (examineYAML validateImages kind fileName d1 sets).bind
          (examineYAML validateImages kind fileName d2) = some r ∧
        (examineYAML validateImages kind fileName d2 sets).bind
          (examineYAML validateImages kind fileName d1) = some r) ∧
    (∀ x y : List (Key × Value), x.Perm y → ImagesAreStrings (.mapInterface x) →
      ∃ r, examineYAML validateImages kind fileName (.mapInterface x) sets = some r ∧
        examineYAML validateImages kind fileName (.mapInterface y) sets = some r) ∧
    (∀ x y : List (String × Value), x.Perm y → ImagesAreStrings (.mapString x) →
      ∃ r, examineYAML validateImages kind fileName (.mapString x) sets = some r ∧
        examineYAML validateImages kind fileName (.mapString y) sets = some r) ∧
    (∀ x y : List Value, x.Perm y → ImagesAreStrings (.slice x) →
      ∃ r, examineYAML validateImages kind fileName (.slice x) sets = some r ∧
        examineYAML validateImages kind fileName (.slice y) sets = some r) := by
  refine ⟨?_, ?_, ?_, ?_⟩
  · obtain ⟨r1, e1, c1⟩ := examineYAML_collects validateImages kind fileName d1 sets h1
    obtain ⟨r12, e12, c12⟩ := examineYAML_collects validateImages kind fileName d2 r1 h2
    obtain ⟨r2, e2, c2⟩ := examineYAML_collects validateImages kind fileName d2 sets h2
    obtain ⟨r21, e21, c21⟩ := examineYAML_collects validateImages kind fileName d1 r2 h1
    have a := collects_trans c1 c12 (R := fun s => HasImage s d1 ∨ HasImage s d2)
      (fun s => Iff.rfl)
    have b := collects_trans c2 c21 (R := fun s => HasImage s d2 ∨ HasImage s d1)
      (fun s => Iff.rfl)
    have hr : r12 = r21 := collects_unique a b (fun s => or_comm)
    refine ⟨r12, by simp [e1, e12], by simp [e2, e21, hr]⟩
  · intro x y hp hx
    have hy : ImagesAreStrings (.mapInterface y) := by
      rw [imagesAreStrings_mapInterface_iff] at hx ⊢
      exact ⟨fun v hv => hx.1 v (hp.mem_iff.mpr hv), fun k v hv => hx.2 k v (hp.mem_iff.mpr hv)⟩
    obtain ⟨r1, e1, c1⟩ := examineYAML_collects validateImages kind fileName _ sets hx
    obtain ⟨r2, e2, c2⟩ := examineYAML_collects validateImages kind fileName _ sets hy
    have hr : r1 = r2 := collects_unique c1 c2 (fun s => by
      rw [hasImage_mapInterface_iff, hasImage_mapInterface_iff]
      simp only [hp.mem_iff])
    exact ⟨r1, e1, by rw [e2, hr]⟩
  · intro x y hp hx
    have hy : ImagesAreStrings (.mapString y) := by
      rw [imagesAreStrings_mapString_iff] at hx ⊢
      exact ⟨fun v hv => hx.1 v (hp.mem_iff.mpr hv), fun k v hv => hx.2 k v (hp.mem_iff.mpr hv)⟩
    obtain ⟨r1, e1, c1⟩ := examineYAML_collects validateImages kind fileName _ sets hx
    obtain ⟨r2, e2, c2⟩ := examineYAML_collects validateImages kind fileName _ sets hy
    have hr : r1 = r2 := collects_unique c1 c2 (fun s => by
      rw [hasImage_mapString_iff, hasImage_mapString_iff]
      simp only [hp.mem_iff])
    exact ⟨r1, e1, by rw [e2, hr]⟩
  · intro x y hp hx
    have hy : ImagesAreStrings (.slice y) := by
      rw [imagesAreStrings_slice_iff] at hx ⊢
      exact fun v hv => hx v (hp.mem_iff.mpr hv)
    obtain ⟨r1, e1, c1⟩ := examineYAML_collects validateImages kind fileName _ sets hx
    obtain ⟨r2, e2, c2⟩ := examineYAML_collects validateImages kind fileName _ sets hy
    have hr : r1 = r2 := collects_unique c1 c2 (fun s => by
      rw [hasImage_slice_iff, hasImage_slice_iff]
      simp only [hp.mem_iff])
    exact ⟨r1, e1, by rw [e2, hr]⟩

/-- Witness of C13: the sample document and a second document, in the two orders, in
validation mode. -/
theorem examineYAML_order_independent_witness :
    ∃ r,
      (examineYAML true "yaml" "a.yaml" sampleDocument (∅, ∅)).bind
          (examineYAML true "yaml" "a.yaml" (.mapInterface [(.str "image", .str "quay.io/c:v2")]))
          = some r ∧
        (examineYAML true "yaml" "a.yaml"
            (.mapInterface [(.str "image", .str "quay.io/c:v2")]) (∅, ∅)).bind
          (examineYAML true "yaml" "a.yaml" sampleDocument) = some r :=
  (examineYAML_order_independent true "yaml" "a.yaml" sampleDocument
    (.mapInterface [(.str "image", .str "quay.io/c:v2")]) (∅, ∅)
    imagesAreStrings_sampleDocument
    (by simp [imagesAreStrings_mapInterface_cons, imagesAreStrings_str,
      imagesAreStrings_mapInterface_nil])).1

/-- C15: on a document whose `"image"` values are strings, in both modes and from any pair of
sets, `examineYAML` returns and only adds: every element of the initial valid set is in
the valid set afterwards, every element of the initial invalid set is in the invalid set
afterwards, and every element that is new in either set is a string attached to an
`"image"` key of the document. -/
theorem examineYAML_only_adds (validateImages : Bool) (kind fileName : String) (d : Value)
    (validImages invalidImages : Finset String) (hd : ImagesAreStrings d) :
    ∃ validImages' invalidImages',
      examineYAML validateImages kind fileName d (validImages, invalidImages) =
        some (validImages', invalidImages') ∧
      validImages ⊆ validImages' ∧ invalidImages ⊆ invalidImages' ∧
      (∀ s, s ∈ validImages' → s ∉ validImages → HasImage s d) ∧
      (∀ s, s ∈ invalidImages' → s ∉ invalidImages → HasImage s d) := by
  obtain ⟨⟨vs', is'⟩, e, c⟩ :=
    examineYAML_collects validateImages kind fileName d (validImages, invalidImages) hd
  refine ⟨vs', is', e, ?_, ?_, ?_, ?_⟩
  · intro s hs
    exact (c.1 s).mpr (Or.inl hs)
  · intro s hs
    exact (c.2 s).mpr (Or.inl hs)
  · intro s hs hn
    rcases (c.1 s).mp hs with h | h
    · exact absurd h hn
    · exact h.1
  · intro s hs hn
    rcases (c.2 s).mp hs with h | h
    · exact absurd h hn
    · exact h.1

/-- Witness of C15: the sample document in validation mode, from a seeded valid set. -/
theorem examineYAML_only_adds_witness :
    ∃ validImages' invalidImages',
      examineYAML true "yaml" "a.yaml" sampleDocument ({"seed"}, ∅) =
        some (validImages', invalidImages') ∧
      ({"seed"} : Finset String) ⊆ validImages' ∧ (∅ : Finset String) ⊆ invalidImages' ∧
      (∀ s, s ∈ validImages' → s ∉ ({"seed"} : Finset String) → HasImage s sampleDocument) ∧
      (∀ s, s ∈ invalidImages' → s ∉ (∅ : Finset String) → HasImage s sampleDocument) :=
  examineYAML_only_adds true "yaml" "a.yaml" sampleDocument {"seed"} ∅
    imagesAreStrings_sampleDocument

theorem withInterfaceKeys_ne_str (v : Value) (hv : ∀ s, v ≠ .str s) :
    ∀ s, withInterfaceKeys v ≠ .str s := by
  intro s
  cases v with
  | str t => exact absurd rfl (hv t)
  | _ => simp [withInterfaceKeys]

theorem examineSlice_withInterfaceKeys (b : Bool) (kind f kind' f' : String) (x : List Value)
    (ih : ∀ v, v ∈ x → ∀ sets,
      examineYAML b kind f (withInterfaceKeys v) sets = examineYAML b kind' f' v sets) :
    ∀ sets, examineSlice b kind f (withInterfaceKeysSlice x) sets =
      examineSlice b kind' f' x sets := by
  induction x with
  | nil => intro sets; simp [withInterfaceKeysSlice, examineSlice]
  | cons v rest ihx =>
    intro sets
    have hrest := ihx (fun w hw => ih w (List.mem_cons_of_mem _ hw))
    simp only [withInterfaceKeysSlice, examineSlice, ih v (List.mem_cons_self _ _)]
    congr 1
    funext s
    exact hrest s

theorem examineMapString_withInterfaceKeys (b : Bool) (kind f kind' f' : String)
    (x : List (String × Value))
    (ih : ∀ k v, (k, v) ∈ x → ∀ sets,
      examineYAML b kind f (withInterfaceKeys v) sets = examineYAML b kind' f' v sets) :
    ∀ sets, examineMapInterface b kind f (withInterfaceKeysEntries x) sets =
      examineMapString b kind' f' x sets := by
  induction x with
  | nil => intro sets; simp [withInterfaceKeysEntries, examineMapInterface, examineMapString]
  | cons kv rest ihx =>
    obtain ⟨k, v⟩ := kv
    intro sets
    have hrest := ihx (fun k' w hw => ih k' w (List.mem_cons_of_mem _ hw))
    simp only [withInterfaceKeysEntries]
    by_cases hk : k = "image"
    · subst hk
      by_cases hv : ∃ s, v = .str s
      · obtain ⟨s, rfl⟩ := hv
        simp only [withInterfaceKeys]
        rw [examineMapInterface_image, examineMapString_image]
        exact hrest _
      · have hv' : ∀ s, v ≠ .str s := fun s e => hv ⟨s, e⟩
        rw [examineMapString_panics _ _ _ _ _ _ hv',
          examineMapInterface_panics _ _ _ _ _ _ (withInterfaceKeys_ne_str v hv')]
    · have hk' : Key.str k ≠ Key.str "image" := fun e => hk (by injection e)
      rw [examineMapInterface_other _ _ _ _ _ _ _ hk', examineMapString_other _ _ _ _ _ _ _ hk,
        ih k v (List.mem_cons_self _ _)]
      congr 1
      funext s
      exact hrest s

theorem examineMapInterface_withInterfaceKeys (b : Bool) (kind f kind' f' : String)
    (x : List (Key × Value))
    (ih : ∀ k v, (k, v) ∈ x → ∀ sets,
      examineYAML b kind f (withInterfaceKeys v) sets = examineYAML b kind' f' v sets) :
    ∀ sets, examineMapInterface b kind f (withInterfaceKeysIface x) sets =
      examineMapInterface b kind' f' x sets := by
  induction x with
  | nil => intro sets; simp [withInterfaceKeysIface, examineMapInterface]
  | cons kv rest ihx =>
    obtain ⟨k, v⟩ := kv
    intro sets
    have hrest := ihx (fun k' w hw => ih k' w (List.mem_cons_of_mem _ hw))
    simp only [withInterfaceKeysIface]
    by_cases hk : k = Key.str "image"
    · subst hk
      by_cases hv : ∃ s, v = .str s
      · obtain ⟨s, rfl⟩ := hv
        simp only [withInterfaceKeys]
        rw [examineMapInterface_image, examineMapInterface_image]
        exact hrest _
      · have hv' : ∀ s, v ≠ .str s := fun s e => hv ⟨s, e⟩
        rw [examineMapInterface_panics _ _ _ _ _ _ hv',
          examineMapInterface_panics _ _ _ _ _ _ (withInterfaceKeys_ne_str v hv')]
    · rw [examineMapInterface_other _ _ _ _ _ _ _ hk, examineMapInterface_other _ _ _ _ _ _ _ hk,
        ih k v (List.mem_cons_self _ _)]
      congr 1
      funext s
      exact hrest s

theorem examineYAML_withInterfaceKeys (b : Bool) (kind f kind' f' : String) :
    ∀ (d : Value) (sets : Finset String × Finset String),
      examineYAML b kind f (withInterfaceKeys d) sets = examineYAML b kind' f' d sets
  | .slice x, sets => by
    have h := examineSlice_withInterfaceKeys b kind f kind' f' x
      (fun v hv sets' =>
        have : sizeOf v < 1 + sizeOf x := by
          have := List.sizeOf_lt_of_mem hv
          omega
        examineYAML_withInterfaceKeys b kind f kind' f' v sets') sets
    simpa [examineYAML, withInterfaceKeys] using h
  | .mapString x, sets => by
    have h := examineMapString_withInterfaceKeys b kind f kind' f' x
      (fun k v hv sets' =>
        have : sizeOf v < 1 + sizeOf x := by
          have := List.sizeOf_lt_of_mem hv
          simp at this
          omega
        examineYAML_withInterfaceKeys b kind f kind' f' v sets') sets
    simpa [examineYAML, withInterfaceKeys] using h
  | .mapInterface x, sets => by
    have h := examineMapInterface_withInterfaceKeys b kind f kind' f' x
      (fun k v hv sets' =>
        have : sizeOf v < 1 + sizeOf x := by
          have := List.sizeOf_lt_of_mem hv
          simp at this
          omega
        examineYAML_withInterfaceKeys b kind f kind' f' v sets') sets
    simpa [examineYAML, withInterfaceKeys] using h
  | .str _, _ => by simp [examineYAML, withInterfaceKeys]
  | .null, _ => by simp [examineYAML, withInterfaceKeys]
  | .bool _, _ => by simp [examineYAML, withInterfaceKeys]
  | .int _, _ => by simp [examineYAML, withInterfaceKeys]
  | .float _, _ => by simp [examineYAML, withInterfaceKeys]
termination_by d => sizeOf d
decreasing_by all_goals (simp_wf; omega)

/-- C14: the two mapping branches of `examineYAML` agree. For every document `d` and the
same initial sets, in both modes, `examineYAML` gives the same result (the same two sets,
or a panic in both cases) on `d` and on the document of the same structure in which every
string-keyed mapping is an arbitrary-keyed mapping with those same string keys; the
arguments `kind` and `fileName` have no influence. -/
theorem examineYAML_mapping_branches_agree (validateImages : Bool)
    (kind fileName kind' fileName' : String) (d : Value)
    (sets : Finset String × Finset String) :
    examineYAML validateImages kind fileName (withInterfaceKeys d) sets =
      examineYAML validateImages kind' fileName' d sets :=
  examineYAML_withInterfaceKeys validateImages kind fileName kind' fileName' d sets

theorem withInterfaceKeys_sample :
    withInterfaceKeys
        (.mapString [("spec", .slice [.mapString [("image", .str "gcr.io/a:v1")]]),
          ("image", .str "x:latest")]) =
      .mapInterface [(.str "spec", .slice [.mapInterface [(.str "image", .str "gcr.io/a:v1")]]),
        (.str "image", .str "x:latest")] := by
  simp [withInterfaceKeys, withInterfaceKeysSlice, withInterfaceKeysEntries]

/-- C7, the code on a file of the two documents `image: 3` and `image: b:v1`, with
validation disabled: the decoder yields both documents and then `io.EOF`, but the loop
panics inside `examineYAML` on the first document (the type assertion `v.(string)`), for
the YAML loop and for the JSON loop; the second document is never examined and `b:v1`
reaches no set, while the file of the second document alone gives the valid set
`{b:v1}`. -/
theorem decodeLoop_panics_before_second_document :
    (∀ fuel : Nat,
      decodeLoop false "yaml" "a.yaml"
          (decoderOf [.mapInterface [(.str "image", .int 3)],
            .mapInterface [(.str "image", .str "b:v1")]])
          (fuel + 1) 0 (∅, ∅) = Run.panics) ∧
      (∀ fuel : Nat,
        decodeLoop false "json" "a.json"
          (decoderOf [.mapString [("image", .int 3)], .mapString [("image", .str "b:v1")]])
          (fuel + 1) 0 (∅, ∅) = Run.panics) ∧
      decodeLoop false "yaml" "a.yaml"
          (decoderOf [.mapInterface [(.str "image", .str "b:v1")]]) 2 0 (∅, ∅) =
        Run.returns ({"b:v1"}, ∅) := by
  refine ⟨?_, ?_, by decide⟩
  · intro fuel
    simp [decodeLoop, decoderOf, examineYAML, examineMapInterface, imageKey]
  · intro fuel
    simp [decodeLoop, decoderOf, examineYAML, examineMapString, imageKey]

/-- C12, the code on the mapping `{5: {image: a:v1}, image: null}`, with validation disabled:
`examineYAML` panics on the entry `image: null` (the type assertion `v.(string)`), in
whichever order `range` visits the two entries, so the string `a:v1` below the key `5`
is in no set afterwards; so it is when the value that is not a string lies below the key
`5` itself. Without the entry `image: null` the string is collected. -/
theorem examineYAML_non_string_key_panics :
    examineYAML false "yaml" "a.yaml"
        (.mapInterface [(.int 5, .mapInterface [(.str "image", .str "a:v1")]),
          (.str "image", .null)]) (∅, ∅) = none ∧
      examineYAML false "yaml" "a.yaml"
        (.mapInterface [(.str "image", .null),
          (.int 5, .mapInterface [(.str "image", .str "a:v1")])]) (∅, ∅) = none ∧
      examineYAML false "yaml" "a.yaml"
        (.mapInterface [(.int 5, .mapInterface [(.str "image", .int 3),
          (.str "nested", .mapInterface [(.str "image", .str "a:v1")])])]) (∅, ∅) = none ∧
      examineYAML false "yaml" "a.yaml"
        (.mapInterface [(.int 5, .mapInterface [(.str "image", .str "a:v1")])]) (∅, ∅) =
        some ({"a:v1"}, ∅) := by
  decide
